import Mathlib

/-!
Verification of the simulation engine of `SimulationV1.py` (Manudulux/simualtionV1).

The source builds a SimPy discrete-event simulation: a production source
(`build_tire_process`) spawns tires at randomized intervals; each tire runs
`tire_lifecycle`, which enters the gantry queue, requests one of the curing
cavities (a fixed-capacity FIFO resource), cures for a randomized duration,
stays 20 time units in finishing and is then removed while the finished
counter is incremented.

We embed the engine shallowly: the SimPy event loop becomes an explicit
event queue of (deadline, priority, sequence, continuation) entries popped in
lexicographic order (deadline first, then priority - SimPy schedules process
initialization as URGENT = 0 and timeouts as NORMAL = 1 - then insertion
sequence), and the two `random.uniform` calls become two injected draw
streams `bd cd : Nat → Rat`.  Time is modelled as `Rat`.
-/

namespace SimulationV1

/-- Layout constant `MACHINE_POS = (0, 5)` (line 10). -/
def MACHINE_POS : Rat × Rat := (0, 5)

/-- Layout constant `GANTRY_POS = (2, 5)` (line 11). -/
def GANTRY_POS : Rat × Rat := (2, 5)

/-- Layout constant `FINISHING_POS = (15, 5)` (line 12). -/
def FINISHING_POS : Rat × Rat := (15, 5)

/-- `CAVITY_COLS = 8` (line 13). -/
def CAVITY_COLS : Nat := 8

/-- `CAVITY_ROWS = 3` (line 14). -/
def CAVITY_ROWS : Nat := 3

/-- The 24 cavity coordinates generated by the nested loop of lines 17-20:
for each row `r < 3` and column `c < 8` the pair `(5 + c, 3 + r * 2)`. -/
def CAVITY_POSITIONS : List (Rat × Rat) :=
  ((List.range CAVITY_ROWS).map (fun r =>
    (List.range CAVITY_COLS).map (fun c =>
      (((5 + c : Nat) : Rat), ((3 + r * 2 : Nat) : Rat))))).flatten

/-- The tire status strings of the source, as an enumeration:
`"Building"`, `"In Gantry"`, `"Curing"`, `"Finished"`.  The spec names these
stages Building, Queued, Processing and Finishing; its terminal stage Done
corresponds to removal from `active_tires` (line 81). -/
inductive Status where
  | building
  | inGantry
  | curing
  | finished
deriving DecidableEq, Repr

/-- Numeric rank of a status in the forward lifecycle order. -/
def Status.rank : Status → Nat
  | .building => 0
  | .inGantry => 1
  | .curing => 2
  | .finished => 3

/-- The `Tire` class (lines 22-27): id, position, color and status.  The
source uses the string id `f"T{n}"`; we keep the number `n`.  A fresh tire
has `pos = MACHINE_POS`, `color = "limegreen"`, `status = "Building"`. -/
structure Tire where
  id : Nat
  pos : Rat × Rat
  color : String
  status : Status
deriving DecidableEq, Repr

/-- Defunctionalized continuations of the two SimPy processes.
`startProduction` is the start of `build_tire_process` (its first
`yield timeout`); `spawn` is the loop body resuming after that timeout
(lines 45-49); `startLife` is the start of `tire_lifecycle` (lines 53-59);
`grantCure` is the resumption after `yield req` (lines 61-72); `cureDone`
resumes after the curing timeout (lines 75-78); `finishDone` resumes after
the finishing timeout (lines 80-81) and performs the context-manager exit
of the `with self.cavities.request()` block, i.e. the release. -/
inductive Cont where
  | startProduction
  | spawn
  | startLife (tid : Nat)
  | grantCure (tid : Nat)
  | cureDone (tid : Nat)
  | finishDone (tid : Nat)
deriving DecidableEq, Repr

/-- A pending scheduled event: deadline, SimPy priority (0 = URGENT for
process initialization, 1 = NORMAL for timeouts and triggered requests),
global insertion sequence number, and the continuation to run. -/
structure Entry where
  time : Rat
  prio : Nat
  seq : Nat
  cont : Cont
deriving DecidableEq, Repr

/-- The whole simulation state: the SimPy environment (clock, event queue)
plus the fields of `FactoryEnv.__init__` (lines 31-39) and the state of the
`simpy.Resource` of line 36 (`holders` = ids of tires currently granted a
cavity, i.e. `users`; `waitList` = the FIFO queue of pending requests).
`tireCount` is `tire_count` of line 42; `buildIdx`/`cureIdx` index the two
injected draw streams. -/
structure SimState where
  now : Rat
  nextSeq : Nat
  events : List Entry
  numCavities : Nat
  buildTime : Rat
  cureTime : Rat
  activeTires : List Tire
  totalFinished : Nat
  gantryQueue : List Nat
  holders : List Nat
  waitList : List Nat
  tireCount : Nat
  buildIdx : Nat
  cureIdx : Nat
deriving DecidableEq, Repr

/-- Strict lexicographic order on (time, prio, seq): the order in which the
SimPy event loop pops scheduled events. -/
def entryLt (a b : Entry) : Bool :=
  a.time < b.time ||
    (a.time == b.time && (a.prio < b.prio || (a.prio == b.prio && a.seq < b.seq)))

/-- Pop the earliest pending event (stable: on equal keys the earlier list
element wins; keys are unique in reachable states since `seq` is unique). -/
def popMin : List Entry → Option (Entry × List Entry)
  | [] => none
  | e :: es =>
    match popMin es with
    | none => some (e, [])
    | some (m, rest) => if entryLt m e then some (m, e :: rest) else some (e, es)

/-- Schedule a continuation at absolute time `t` with priority `p`
(appending to the event list with a fresh sequence number). -/
def sched (s : SimState) (t : Rat) (p : Nat) (c : Cont) : SimState :=
  { s with events := s.events ++ [⟨t, p, s.nextSeq, c⟩], nextSeq := s.nextSeq + 1 }

/-- Update the tire with id `tid` in a tire list (all other tires kept). -/
def setTire (l : List Tire) (tid : Nat) (f : Tire → Tire) : List Tire :=
  l.map (fun t => if t.id = tid then f t else t)

/-- Run one continuation, in a state whose clock is already at the popped
event's deadline.  Returns `none` exactly when the cavity-coordinate lookup
of line 66 (`next(p for p in CAVITY_POSITIONS if p not in occupied_positions)`)
finds no candidate, which in Python would raise `StopIteration`. -/
def stepCont (bd cd : Nat → Rat) (s : SimState) (c : Cont) : Option SimState :=
  match c with
  | .startProduction =>
      -- build_tire_process begins: draw the first build interval (line 45)
      let b := bd s.buildIdx
      some (sched { s with buildIdx := s.buildIdx + 1 } (s.now + b) 1 .spawn)
  | .spawn =>
      -- lines 46-49: create the tire, add it to active_tires, start its
      -- lifecycle process, increment tire_count; then the loop draws the
      -- next build interval and yields the next timeout (line 45)
      let tid := s.tireCount
      let tire : Tire := ⟨tid, MACHINE_POS, "limegreen", .building⟩
      let s1 := { s with activeTires := s.activeTires ++ [tire],
                         tireCount := s.tireCount + 1 }
      let s2 := sched s1 s1.now 0 (.startLife tid)
      let b := bd s2.buildIdx
      some (sched { s2 with buildIdx := s2.buildIdx + 1 } (s2.now + b) 1 .spawn)
  | .startLife tid =>
      -- lines 53-56: status "In Gantry", stacked gantry position, append to
      -- gantry_queue; lines 59-60: request the resource.  If a slot is free
      -- the request succeeds at once and the resumption is scheduled;
      -- otherwise the request joins the FIFO wait queue.
      let pos : Rat × Rat :=
        (GANTRY_POS.1, GANTRY_POS.2 + (s.gantryQueue.length : Rat) * (1/5))
      let s1 := { s with
        activeTires := setTire s.activeTires tid
          (fun t => { t with status := .inGantry, pos := pos }),
        gantryQueue := s.gantryQueue ++ [tid] }
      if s1.holders.length < s1.numCavities then
        some (sched { s1 with holders := s1.holders ++ [tid] } s1.now 1 (.grantCure tid))
      else
        some { s1 with waitList := s1.waitList ++ [tid] }
  | .grantCure tid =>
      -- line 61: remove from gantry_queue; lines 65-66: first cavity
      -- coordinate not held by a curing tire; lines 69-72: status "Curing",
      -- move there, draw the curing duration and yield its timeout
      let s1 := { s with gantryQueue := s.gantryQueue.erase tid }
      let occupied : List (Rat × Rat) :=
        (s1.activeTires.filter (fun t => t.status == Status.curing)).map (·.pos)
      match CAVITY_POSITIONS.find? (fun (p : Rat × Rat) => decide (p ∉ occupied)) with
      | none => none
      | some p =>
        let s2 := { s1 with
          activeTires := setTire s1.activeTires tid
            (fun t => { t with status := .curing, pos := p }) }
        let cdur := cd s2.cureIdx
        some (sched { s2 with cureIdx := s2.cureIdx + 1 } (s2.now + cdur) 1 (.cureDone tid))
  | .cureDone tid =>
      -- lines 75-78: color black, status "Finished", move to the finishing
      -- area, stay 20 time units
      let s1 := { s with
        activeTires := setTire s.activeTires tid
          (fun t => { t with color := "black", status := .finished,
                             pos := FINISHING_POS }) }
      some (sched s1 (s1.now + 20) 1 (.finishDone tid))
  | .finishDone tid =>
      -- lines 80-81: increment total_finished, remove from active_tires;
      -- then the `with` block of line 59 exits and releases the resource:
      -- the slot is handed to the head of the FIFO wait queue, if any
      let s1 := { s with totalFinished := s.totalFinished + 1,
                         activeTires := s.activeTires.eraseP (fun t => t.id == tid) }
      let s2 := { s1 with holders := s1.holders.erase tid }
      match s2.waitList with
      | [] => some s2
      | w :: rest =>
        some (sched { s2 with waitList := rest, holders := s2.holders ++ [w] }
          s2.now 1 (.grantCure w))

/-- One step of the event loop: pop the earliest event, move the clock to
its deadline and run its continuation.  `none` when the queue is empty or
the continuation fails (see `stepCont`). -/
def step (bd cd : Nat → Rat) (s : SimState) : Option SimState :=
  match popMin s.events with
  | none => none
  | some (e, rest) => stepCont bd cd { s with now := e.time, events := rest } e.cont

/-- Iterate `step` a fixed number of times. -/
def stepN (bd cd : Nat → Rat) : Nat → SimState → Option SimState
  | 0, s => some s
  | n + 1, s => (step bd cd s).bind (stepN bd cd n)

/-- The state after `FactoryEnv.__init__` (lines 31-39) followed by
`sim_env.process(factory.build_tire_process())` (line 121): empty factory,
one pending process-initialization event at time 0. -/
def initState (numCavities : Nat) (buildTime cureTime : Rat) : SimState :=
  { now := 0
    nextSeq := 1
    events := [⟨0, 0, 0, .startProduction⟩]
    numCavities := numCavities
    buildTime := buildTime
    cureTime := cureTime
    activeTires := []
    totalFinished := 0
    gantryQueue := []
    holders := []
    waitList := []
    tireCount := 1
    buildIdx := 0
    cureIdx := 0 }

/-- `sim_env.run(until=T)` (line 126): process every pending event whose
deadline is at most `T`, then set the clock to `T`.  Fuel-bounded; `none`
if the fuel runs out or a continuation fails. -/
def advance (bd cd : Nat → Rat) : Nat → SimState → Rat → Option SimState
  | 0, _, _ => none
  | fuel + 1, s, T =>
    match popMin s.events with
    | none => some { s with now := T }
    | some (e, rest) =>
      if e.time ≤ T then
        match stepCont bd cd { s with now := e.time, events := rest } e.cont with
        | none => none
        | some s1 => advance bd cd fuel s1 T
      else some { s with now := T }

/-- The status of the active tire with id `tid`, if active. -/
def statusOf (s : SimState) (tid : Nat) : Option Status :=
  (s.activeTires.find? (fun t => t.id == tid)).map (·.status)

/-- Reachability: states produced from a freshly constructed factory by
finitely many successful event-loop steps, for fixed draw streams. -/
inductive Reachable (bd cd : Nat → Rat) (nc : Nat) (bt ct : Rat) : SimState → Prop where
  | init : Reachable bd cd nc bt ct (initState nc bt ct)
  | next {s s' : SimState} : Reachable bd cd nc bt ct s → step bd cd s = some s' →
      Reachable bd cd nc bt ct s'

/-- The build-interval window of line 45:
`random.uniform(self.build_time - 3, self.build_time + 3)`.  The half-width
3 is a literal constant in the source; only the mean is configurable. -/
def buildWindow (bt : Rat) : Rat × Rat := (bt - 3, bt + 3)

/-- The curing-duration window of line 72:
`random.uniform(self.cure_time - 60, self.cure_time + 60)`.  The half-width
60 is a literal constant in the source; only the mean is configurable. -/
def cureWindow (ct : Rat) : Rat × Rat := (ct - 60, ct + 60)

/-- Draw streams whose values lie in the source's two uniform windows:
every build draw in `[build_time - 3, build_time + 3]` (line 45), every
cure draw in `[cure_time - 60, cure_time + 60]` (line 72). -/
def ValidDraws (bd cd : Nat → Rat) (bt ct : Rat) : Prop :=
  ∀ n, ((buildWindow bt).1 ≤ bd n ∧ bd n ≤ (buildWindow bt).2) ∧
       ((cureWindow ct).1 ≤ cd n ∧ cd n ≤ (cureWindow ct).2)

/-- The configuration path of the source: the sidebar values are passed to
`FactoryEnv(sim_env, 24, build_t, cure_t_min * 60)` (lines 119-121), whose
`__init__` (lines 31-39) only stores them.  No parameter validation exists
anywhere in the source and no exception is ever raised on this path, so the
result is always `Except.ok`; there is no `InvalidConfigurationError`. -/
def configure (numCavities : Nat) (buildTime cureTime : Rat) : Except String SimState :=
  Except.ok (initState numCavities buildTime cureTime)

/-- Constant build-draw stream taking the mean value 10: the determinstic
reading of the spec's scenario `buildMean=10, spread=0`. -/
def meanBuild : Nat → Rat := fun _ => 10

/-- Constant cure-draw stream taking the mean value 100: the deterministic
reading of the spec's scenario `cureMean=100, spread=0`. -/
def meanCure : Nat → Rat := fun _ => 100

/-- The spec's scenario configuration: capacity 1, build time 10, cure
time 100. -/
def scenario : SimState := initState 1 10 100

/-- The scenario state observed after `run(until=T)` with every draw at its
mean (fuel 200 covers every `T ≤ 230` comfortably). -/
def scenarioAt (T : Rat) : Option SimState := advance meanBuild meanCure 200 scenario T

/-- The scenario state after `n` event-loop steps (falling back to the
initial state if the run stalls, which never happens for the sampled
values of `n`). -/
def wstate (n : Nat) : SimState :=
  (stepN meanBuild meanCure n scenario).getD scenario

/-- A tire with id `tid` and status `st` occurs in a tire list. -/
def hasT (l : List Tire) (tid : Nat) (st : Status) : Prop :=
  ∃ t ∈ l, t.id = tid ∧ t.status = st

/-- An active tire with id `tid` and status `st` exists. -/
def hasTire (s : SimState) (tid : Nat) (st : Status) : Prop :=
  hasT s.activeTires tid st

/-- The tire id a lifecycle continuation belongs to. -/
def Cont.tid? : Cont → Option Nat
  | .startLife t => some t
  | .grantCure t => some t
  | .cureDone t => some t
  | .finishDone t => some t
  | _ => none

/-- The tire ids of all pending lifecycle events. -/
def lifeTids (evs : List Entry) : List Nat := evs.filterMap (fun e => e.cont.tid?)

/-- What a pending continuation presupposes about the state it will run in:
a pending `startLife` belongs to a building tire; a pending `grantCure` to a
tire still shown in the gantry whose request has been granted (it is among
the holders and not in the wait queue); a pending `cureDone` to a curing
tire; a pending `finishDone` to a finished tire. -/
def EvOk (s : SimState) : Cont → Prop
  | .startProduction => True
  | .spawn => True
  | .startLife tid => hasTire s tid .building
  | .grantCure tid => hasTire s tid .inGantry ∧ tid ∈ s.holders ∧ tid ∉ s.waitList
  | .cureDone tid => hasTire s tid .curing
  | .finishDone tid => hasTire s tid .finished

/-- The inductive invariant of the simulation, established at construction
and preserved by every event-loop step. -/
structure Inv (s : SimState) : Prop where
  ids_nodup : (s.activeTires.map Tire.id).Nodup
  ids_lt : ∀ t ∈ s.activeTires, t.id < s.tireCount
  count_eq : s.tireCount = s.totalFinished + s.activeTires.length + 1
  life_nodup : (lifeTids s.events).Nodup
  ev_ok : ∀ e ∈ s.events, EvOk s e.cont
  queue_iff : ∀ x, x ∈ s.gantryQueue ↔ hasTire s x .inGantry
  queue_nodup : s.gantryQueue.Nodup
  wait_status : ∀ x ∈ s.waitList, hasTire s x .inGantry
  wait_not_holder : ∀ x ∈ s.waitList, x ∉ s.holders
  wait_nodup : s.waitList.Nodup
  holders_nodup : s.holders.Nodup
  holders_le : s.holders.length ≤ s.numCavities
  holders_active : ∀ x ∈ s.holders, ∃ t ∈ s.activeTires, t.id = x ∧ t.status ≠ .building
  curing_holder : ∀ t ∈ s.activeTires, t.status = .curing → t.id ∈ s.holders
  finished_holder : ∀ t ∈ s.activeTires, t.status = .finished → t.id ∈ s.holders
  curing_pos_mem : ∀ t ∈ s.activeTires, t.status = .curing → t.pos ∈ CAVITY_POSITIONS
  curing_pos_inj : ∀ t ∈ s.activeTires, ∀ u ∈ s.activeTires, t.status = .curing →
      u.status = .curing → t.pos = u.pos → t.id = u.id

end SimulationV1
namespace SimulationV1

theorem popMin_ne_none (e : Entry) (es : List Entry) : popMin (e :: es) ≠ none := by
  unfold popMin
  cases popMin es with
  | none => simp
  | some p => obtain ⟨m, rest⟩ := p; dsimp only; split <;> simp

theorem popMin_perm {l : List Entry} : ∀ {e : Entry} {r : List Entry},
    popMin l = some (e, r) → l.Perm (e :: r) := by
  induction l with
  | nil => intro e r h; simp [popMin] at h
  | cons x xs ih =>
    intro e r h
    cases hp : popMin xs with
    | none =>
      simp only [popMin, hp, Option.some.injEq, Prod.mk.injEq] at h
      obtain ⟨he, hr⟩ := h
      subst he; subst hr
      cases xs with
      | nil => exact List.Perm.refl _
      | cons y ys => exact absurd hp (popMin_ne_none y ys)
    | some p =>
      obtain ⟨m, rest⟩ := p
      simp only [popMin, hp] at h
      split at h
      · simp only [Option.some.injEq, Prod.mk.injEq] at h
        obtain ⟨he, hr⟩ := h
        subst he; subst hr
        exact (List.Perm.cons x (ih hp)).trans (List.Perm.swap m x rest)
      · simp only [Option.some.injEq, Prod.mk.injEq] at h
        obtain ⟨he, hr⟩ := h
        subst he; subst hr
        exact List.Perm.refl _

theorem setTire_map_id {l : List Tire} {tid : Nat} {f : Tire → Tire}
    (hid : ∀ t, (f t).id = t.id) : (setTire l tid f).map Tire.id = l.map Tire.id := by
  unfold setTire
  rw [List.map_map]
  exact List.map_congr_left (fun t _ => by by_cases h : t.id = tid <;> simp [h, hid])

theorem setTire_length {l : List Tire} {tid : Nat} {f : Tire → Tire} :
    (setTire l tid f).length = l.length := by
  unfold setTire; exact List.length_map l _

theorem mem_setTire_of_ne {l : List Tire} {tid : Nat} {f : Tire → Tire} {t : Tire}
    (ht : t ∈ l) (hne : t.id ≠ tid) : t ∈ setTire l tid f :=
  List.mem_map.2 ⟨t, ht, by simp [hne]⟩

theorem of_mem_setTire {l : List Tire} {tid : Nat} {f : Tire → Tire} {u : Tire}
    (hu : u ∈ setTire l tid f) : ∃ t ∈ l, u = if t.id = tid then f t else t := by
  obtain ⟨t, ht, he⟩ := List.mem_map.1 hu
  exact ⟨t, ht, he.symm⟩

theorem hasT_setTire_of_ne {l : List Tire} {tid : Nat} {f : Tire → Tire} {x : Nat}
    {st : Status} (hid : ∀ t, (f t).id = t.id) (hne : x ≠ tid) :
    hasT (setTire l tid f) x st ↔ hasT l x st := by
  constructor
  · rintro ⟨u, hu, hux, hust⟩
    obtain ⟨t, ht, he⟩ := of_mem_setTire hu
    by_cases htid : t.id = tid
    · rw [if_pos htid] at he
      rw [he, hid t] at hux
      exact absurd (show x = tid by rw [← hux]; exact htid) hne
    · rw [if_neg htid] at he
      exact ⟨t, ht, he ▸ hux, he ▸ hust⟩
  · rintro ⟨t, ht, htx, htst⟩
    exact ⟨t, mem_setTire_of_ne ht (fun hc => hne (by rw [← htx]; exact hc)), htx, htst⟩

theorem hasT_setTire_self {l : List Tire} {tid : Nat} {f : Tire → Tire} {st st0 : Status}
    (hid : ∀ t, (f t).id = t.id) (hst : ∀ t, (f t).status = st0) :
    hasT (setTire l tid f) tid st ↔ (st = st0 ∧ ∃ t ∈ l, t.id = tid) := by
  constructor
  · rintro ⟨u, hu, hux, hust⟩
    obtain ⟨t, ht, he⟩ := of_mem_setTire hu
    by_cases htid : t.id = tid
    · rw [if_pos htid] at he
      exact ⟨hust.symm.trans (he ▸ hst t), t, ht, htid⟩
    · rw [if_neg htid] at he
      exact absurd (he ▸ hux) htid
  · rintro ⟨hst0, t, ht, htid⟩
    refine ⟨f t, List.mem_map.2 ⟨t, ht, by rw [if_pos htid]⟩, (hid t).trans htid, hst0 ▸ hst t⟩

theorem hasT_append_single {l : List Tire} {t0 : Tire} {x : Nat} {st : Status} :
    hasT (l ++ [t0]) x st ↔ hasT l x st ∨ (t0.id = x ∧ t0.status = st) := by
  unfold hasT
  simp only [List.mem_append, List.mem_singleton]
  constructor
  · rintro ⟨u, hu | rfl, hux, hust⟩
    · exact Or.inl ⟨u, hu, hux, hust⟩
    · exact Or.inr ⟨hux, hust⟩
  · rintro (⟨u, hu, hux, hust⟩ | ⟨h1, h2⟩)
    · exact ⟨u, Or.inl hu, hux, hust⟩
    · exact ⟨t0, Or.inr rfl, h1, h2⟩

theorem eraseP_tire_id_ne {l : List Tire} {tid : Nat} (hnd : (l.map Tire.id).Nodup) :
    ∀ u ∈ l.eraseP (fun t => t.id == tid), u.id ≠ tid := by
  induction l with
  | nil => simp [List.eraseP]
  | cons x xs ih =>
    rw [List.map_cons, List.nodup_cons] at hnd
    obtain ⟨hx, hxs⟩ := hnd
    by_cases hxt : x.id = tid
    · rw [List.eraseP_cons_of_pos (by simp [hxt])]
      intro u hu hut
      exact hx (by rw [hxt, ← hut]; exact List.mem_map.2 ⟨u, hu, rfl⟩)
    · rw [List.eraseP_cons_of_neg (by simp [hxt])]
      intro u hu
      rcases List.mem_cons.1 hu with rfl | hu'
      · exact hxt
      · exact ih hxs u hu'

theorem eraseP_tire_nodup {l : List Tire} {tid : Nat} (hnd : (l.map Tire.id).Nodup) :
    ((l.eraseP (fun t => t.id == tid)).map Tire.id).Nodup :=
  List.Nodup.sublist (List.Sublist.map Tire.id (List.eraseP_sublist l)) hnd

theorem hasT_eraseP_of_ne {l : List Tire} {tid x : Nat} {st : Status} (hne : x ≠ tid) :
    hasT (l.eraseP (fun t => t.id == tid)) x st ↔ hasT l x st := by
  constructor
  · rintro ⟨u, hu, hux, hust⟩
    exact ⟨u, List.mem_of_mem_eraseP hu, hux, hust⟩
  · rintro ⟨t, ht, htx, htst⟩
    refine ⟨t, ?_, htx, htst⟩
    exact (List.mem_eraseP_of_neg (by simp [htx, hne])).2 ht

theorem not_hasT_eraseP_self {l : List Tire} {tid : Nat} {st : Status}
    (hnd : (l.map Tire.id).Nodup) : ¬ hasT (l.eraseP (fun t => t.id == tid)) tid st := by
  rintro ⟨u, hu, hux, _⟩
  exact eraseP_tire_id_ne hnd u hu hux

theorem eraseP_tire_length {l : List Tire} {tid : Nat} {t : Tire} (ht : t ∈ l)
    (htid : t.id = tid) : (l.eraseP (fun t => t.id == tid)).length + 1 = l.length :=
  List.length_eraseP_add_one ht (by simp [htid])

end SimulationV1
namespace SimulationV1

theorem hasT_status_eq {l : List Tire} (hnd : (l.map Tire.id).Nodup) {x : Nat}
    {st1 st2 : Status} (h1 : hasT l x st1) (h2 : hasT l x st2) : st1 = st2 := by
  obtain ⟨t, ht, htx, hts⟩ := h1
  obtain ⟨u, hu, hux, hus⟩ := h2
  have heq : t = u := List.inj_on_of_nodup_map hnd ht hu (htx.trans hux.symm)
  rw [← hts, ← hus, heq]

theorem mem_lifeTids {evs : List Entry} {x : Nat} :
    x ∈ lifeTids evs ↔ ∃ en ∈ evs, en.cont.tid? = some x := by
  simp [lifeTids, List.mem_filterMap]

theorem lifeTids_append (a b : List Entry) : lifeTids (a ++ b) = lifeTids a ++ lifeTids b :=
  List.filterMap_append a b _

theorem lifeTids_cons_none (en : Entry) (evs : List Entry) (h : en.cont.tid? = none) :
    lifeTids (en :: evs) = lifeTids evs := by
  simp [lifeTids, List.filterMap_cons, h]

theorem lifeTids_cons_some (en : Entry) (evs : List Entry) {t : Nat}
    (h : en.cont.tid? = some t) : lifeTids (en :: evs) = t :: lifeTids evs := by
  simp [lifeTids, List.filterMap_cons, h]

theorem evOk_tid_status {s : SimState} {c : Cont} {x : Nat} (hok : EvOk s c)
    (hx : c.tid? = some x) : ∃ st, hasT s.activeTires x st := by
  cases c with
  | startProduction => simp [Cont.tid?] at hx
  | spawn => simp [Cont.tid?] at hx
  | startLife tid => simp [Cont.tid?] at hx; exact ⟨.building, hx ▸ hok⟩
  | grantCure tid => simp [Cont.tid?] at hx; exact ⟨.inGantry, hx ▸ hok.1⟩
  | cureDone tid => simp [Cont.tid?] at hx; exact ⟨.curing, hx ▸ hok⟩
  | finishDone tid => simp [Cont.tid?] at hx; exact ⟨.finished, hx ▸ hok⟩

theorem EvOk_transfer {s t : SimState} {c : Cont}
    (hA : ∀ x st, c.tid? = some x → hasT s.activeTires x st → hasT t.activeTires x st)
    (hH : ∀ x, c.tid? = some x → x ∈ s.holders → x ∈ t.holders)
    (hW : ∀ x, c.tid? = some x → x ∉ s.waitList → x ∉ t.waitList)
    (h : EvOk s c) : EvOk t c := by
  cases c with
  | startProduction => trivial
  | spawn => trivial
  | startLife tid => exact hA tid .building rfl h
  | grantCure tid => exact ⟨hA tid .inGantry rfl h.1, hH tid rfl h.2.1, hW tid rfl h.2.2⟩
  | cureDone tid => exact hA tid .curing rfl h
  | finishDone tid => exact hA tid .finished rfl h


theorem setTire_id_of_mem {l : List Tire} {tid : Nat} {f : Tire → Tire}
    (hid : ∀ t, (f t).id = t.id) {u : Tire} (hu : u ∈ setTire l tid f) :
    ∃ t ∈ l, u.id = t.id := by
  obtain ⟨t, ht, he⟩ := of_mem_setTire hu
  refine ⟨t, ht, ?_⟩
  by_cases h2 : t.id = tid
  · rw [if_pos h2] at he; rw [he, hid t]
  · rw [if_neg h2] at he; rw [he]

/-- The invariant holds at construction. -/
theorem inv_init (nc : Nat) (bt ct : Rat) : Inv (initState nc bt ct) := by
  refine ⟨?_, ?_, ?_, ?_, ?_, ?_, ?_, ?_, ?_, ?_, ?_, ?_, ?_, ?_, ?_, ?_, ?_⟩ <;>
    simp [initState, lifeTids, hasTire, hasT, EvOk, Cont.tid?]

theorem inv_step {bd cd : Nat → Rat} {s s1 : SimState} (hInv : Inv s)
    (h : step bd cd s = some s1) : Inv s1 := by
  unfold step at h
  cases hp : popMin s.events with
  | none => rw [hp] at h; exact absurd h (by simp)
  | some p =>
    obtain ⟨e, rest⟩ := p
    rw [hp] at h
    have hperm : s.events.Perm (e :: rest) := popMin_perm hp
    have hsub : ∀ x ∈ (e :: rest), x ∈ s.events := fun x hx => hperm.symm.subset hx
    have hevE : EvOk s e.cont := hInv.ev_ok e (hsub e (List.mem_cons_self e rest))
    have hevR : ∀ x ∈ rest, EvOk s x.cont :=
      fun x hx => hInv.ev_ok x (hsub x (List.mem_cons_of_mem e hx))
    have hl0 : (lifeTids s.events).Perm (lifeTids (e :: rest)) := by
      unfold lifeTids
      exact hperm.filterMap fun en => en.cont.tid?
    have hlife : (lifeTids (e :: rest)).Nodup := hl0.nodup hInv.life_nodup
    have uniq := List.inj_on_of_nodup_map hInv.ids_nodup
    obtain ⟨tm, pr, sq, c⟩ := e
    cases c with
    | startProduction =>
      simp only [stepCont, sched, Option.some.injEq] at h
      subst h
      rw [lifeTids_cons_none ⟨tm, pr, sq, Cont.startProduction⟩ rest rfl] at hlife
      refine ⟨hInv.ids_nodup, hInv.ids_lt, hInv.count_eq, ?_, ?_, hInv.queue_iff,
        hInv.queue_nodup, hInv.wait_status, hInv.wait_not_holder, hInv.wait_nodup,
        hInv.holders_nodup, hInv.holders_le, hInv.holders_active, hInv.curing_holder,
        hInv.finished_holder, hInv.curing_pos_mem, hInv.curing_pos_inj⟩
      · rw [show lifeTids (rest ++ [⟨tm + bd s.buildIdx, 1, s.nextSeq, Cont.spawn⟩]) =
            lifeTids rest ++ lifeTids [⟨tm + bd s.buildIdx, 1, s.nextSeq, Cont.spawn⟩] from
            lifeTids_append _ _]
        simpa [lifeTids, Cont.tid?] using hlife
      · intro x hx
        rcases List.mem_append.1 hx with hx | hx
        · exact hevR x hx
        · rw [List.mem_singleton.1 hx]; trivial
    | spawn =>
      simp only [stepCont, sched, Option.some.injEq] at h
      subst h
      rw [lifeTids_cons_none ⟨tm, pr, sq, Cont.spawn⟩ rest rfl] at hlife
      have hfresh : ∀ t ∈ s.activeTires, t.id ≠ s.tireCount :=
        fun t ht => Nat.ne_of_lt (hInv.ids_lt t ht)
      have hfreshIds : s.tireCount ∉ s.activeTires.map Tire.id := by
        intro hmem
        obtain ⟨t, ht, hid⟩ := List.mem_map.1 hmem
        exact hfresh t ht hid
      have hlifefresh : s.tireCount ∉ lifeTids rest := by
        intro hx
        obtain ⟨en, hen, htid⟩ := mem_lifeTids.1 hx
        obtain ⟨st, t, ht, hid, _⟩ := evOk_tid_status (hevR en hen) htid
        exact hfresh t ht hid
      refine ⟨?_, ?_, ?_, ?_, ?_, ?_, hInv.queue_nodup, ?_, hInv.wait_not_holder,
        hInv.wait_nodup, hInv.holders_nodup, hInv.holders_le, ?_, ?_, ?_, ?_, ?_⟩
      · rw [List.map_append]
        rw [List.nodup_append]
        refine ⟨hInv.ids_nodup, List.nodup_singleton _, ?_⟩
        intro a ha hb
        rw [show a = s.tireCount by simpa using hb] at ha
        exact hfreshIds ha
      · intro t ht
        rcases List.mem_append.1 ht with ht | ht
        · exact Nat.lt_succ_of_lt (hInv.ids_lt t ht)
        · rw [List.mem_singleton.1 ht]; exact Nat.lt_succ_self _
      · rw [List.length_append]
        have := hInv.count_eq
        simp only [List.length_singleton]
        omega
      · rw [lifeTids_append, lifeTids_append]
        rw [show lifeTids [⟨tm, 0, s.nextSeq, Cont.startLife s.tireCount⟩] =
            [s.tireCount] by simp [lifeTids, Cont.tid?]]
        rw [show lifeTids [⟨tm + bd s.buildIdx, 1, s.nextSeq + 1, Cont.spawn⟩] =
            ([] : List Nat) by simp [lifeTids, Cont.tid?]]
        rw [List.append_nil, List.nodup_append]
        refine ⟨hlife, List.nodup_singleton _, ?_⟩
        intro a ha hb
        rw [show a = s.tireCount by simpa using hb] at ha
        exact hlifefresh ha
      · intro x hx
        rcases List.mem_append.1 hx with hx | hx
        · rcases List.mem_append.1 hx with hx | hx
          · refine EvOk_transfer ?_ ?_ ?_ (hevR x hx)
            · exact fun y st _ hy => hasT_append_single.2 (Or.inl hy)
            · exact fun y _ hy => hy
            · exact fun y _ hy => hy
          · rw [List.mem_singleton.1 hx]
            exact hasT_append_single.2 (Or.inr ⟨rfl, rfl⟩)
        · rw [List.mem_singleton.1 hx]; trivial
      · intro x
        constructor
        · intro hx
          exact hasT_append_single.2 (Or.inl ((hInv.queue_iff x).1 hx))
        · intro hx
          rcases hasT_append_single.1 hx with hx2 | ⟨_, habs⟩
          · exact (hInv.queue_iff x).2 hx2
          · exact absurd habs (by simp)
      · intro x hx
        exact hasT_append_single.2 (Or.inl (hInv.wait_status x hx))
      · intro x hx
        obtain ⟨t, ht, hid, hst⟩ := hInv.holders_active x hx
        exact ⟨t, List.mem_append_left _ ht, hid, hst⟩
      · intro t ht hst
        rcases List.mem_append.1 ht with ht | ht
        · exact hInv.curing_holder t ht hst
        · rw [List.mem_singleton.1 ht] at hst; exact absurd hst (by simp)
      · intro t ht hst
        rcases List.mem_append.1 ht with ht | ht
        · exact hInv.finished_holder t ht hst
        · rw [List.mem_singleton.1 ht] at hst; exact absurd hst (by simp)
      · intro t ht hst
        rcases List.mem_append.1 ht with ht | ht
        · exact hInv.curing_pos_mem t ht hst
        · rw [List.mem_singleton.1 ht] at hst; exact absurd hst (by simp)
      · intro t ht u hu hts hus hpos
        rcases List.mem_append.1 ht with ht | ht
        · rcases List.mem_append.1 hu with hu | hu
          · exact hInv.curing_pos_inj t ht u hu hts hus hpos
          · rw [List.mem_singleton.1 hu] at hus; exact absurd hus (by simp)
        · rw [List.mem_singleton.1 ht] at hts; exact absurd hts (by simp)
    | startLife tid =>
      simp only [stepCont, sched] at h
      have hhasB : hasT s.activeTires tid .building := hevE
      obtain ⟨t0, ht0, hid0, hst0⟩ := hhasB
      rw [lifeTids_cons_some ⟨tm, pr, sq, Cont.startLife tid⟩ rest rfl] at hlife
      have htidfresh : tid ∉ lifeTids rest := (List.nodup_cons.1 hlife).1
      have hlifeR : (lifeTids rest).Nodup := (List.nodup_cons.1 hlife).2
      have htidQ : tid ∉ s.gantryQueue := by
        intro hq
        have := hasT_status_eq hInv.ids_nodup ((hInv.queue_iff tid).1 hq) ⟨t0, ht0, hid0, hst0⟩
        simp at this
      have htidW : tid ∉ s.waitList := by
        intro hw
        have := hasT_status_eq hInv.ids_nodup (hInv.wait_status tid hw) ⟨t0, ht0, hid0, hst0⟩
        simp at this
      have htidH : tid ∉ s.holders := by
        intro hh
        obtain ⟨u, hu, huid, hust⟩ := hInv.holders_active tid hh
        exact hust (by rw [uniq hu ht0 (huid.trans hid0.symm)]; exact hst0)
      have hneR : ∀ x ∈ rest, ∀ y : Nat, x.cont.tid? = some y → y ≠ tid := by
        intro x hx y hy hc
        exact htidfresh (mem_lifeTids.2 ⟨x, hx, hc ▸ hy⟩)
      have hidf : ∀ t : Tire,
          (Tire.mk t.id (GANTRY_POS.1, GANTRY_POS.2 + (s.gantryQueue.length : Rat) * (1/5))
            t.color Status.inGantry).id = t.id := fun t => rfl
      have hstf : ∀ t : Tire,
          (Tire.mk t.id (GANTRY_POS.1, GANTRY_POS.2 + (s.gantryQueue.length : Rat) * (1/5))
            t.color Status.inGantry).status = Status.inGantry := fun t => rfl
      split at h
      case isTrue hcond =>
        simp only [Option.some.injEq] at h
        subst h
        refine ⟨?_, ?_, ?_, ?_, ?_, ?_, ?_, ?_, ?_, hInv.wait_nodup, ?_, ?_, ?_, ?_, ?_, ?_, ?_⟩
        · rw [setTire_map_id hidf]; exact hInv.ids_nodup
        · intro t ht
          obtain ⟨u, hu, hidu⟩ := setTire_id_of_mem hidf ht
          exact hidu ▸ hInv.ids_lt u hu
        · rw [setTire_length]; exact hInv.count_eq
        · rw [lifeTids_append,
            show lifeTids [⟨tm, 1, s.nextSeq, Cont.grantCure tid⟩] = [tid] by
              simp [lifeTids, Cont.tid?]]
          rw [List.nodup_append]
          refine ⟨hlifeR, List.nodup_singleton _, ?_⟩
          intro a ha hb
          rw [show a = tid by simpa using hb] at ha
          exact htidfresh ha
        · intro x hx
          rcases List.mem_append.1 hx with hx | hx
          · refine EvOk_transfer ?_ ?_ ?_ (hevR x hx)
            · exact fun y st hy hh =>
                (hasT_setTire_of_ne hidf (hneR x hx y hy)).2 hh
            · exact fun y _ hy => List.mem_append_left _ hy
            · exact fun y _ hy => hy
          · rw [List.mem_singleton.1 hx]
            refine ⟨(hasT_setTire_self hidf hstf).2 ⟨rfl, t0, ht0, hid0⟩,
              List.mem_append_right _ (by simp), htidW⟩
        · intro x
          constructor
          · intro hx
            rcases List.mem_append.1 hx with hx | hx
            · have hxt : x ≠ tid := fun hc => htidQ (hc ▸ hx)
              exact (hasT_setTire_of_ne hidf hxt).2 ((hInv.queue_iff x).1 hx)
            · rw [List.mem_singleton.1 hx]
              exact (hasT_setTire_self hidf hstf).2 ⟨rfl, t0, ht0, hid0⟩
          · intro hh
            by_cases hxt : x = tid
            · rw [hxt]; exact List.mem_append_right _ (by simp)
            · exact List.mem_append_left _
                ((hInv.queue_iff x).2 ((hasT_setTire_of_ne hidf hxt).1 hh))
        · rw [List.nodup_append]
          refine ⟨hInv.queue_nodup, List.nodup_singleton _, ?_⟩
          intro a ha hb
          rw [show a = tid by simpa using hb] at ha
          exact htidQ ha
        · intro x hx
          have hxt : x ≠ tid := fun hc => htidW (hc ▸ hx)
          exact (hasT_setTire_of_ne hidf hxt).2 (hInv.wait_status x hx)
        · intro x hx hmem
          rcases List.mem_append.1 hmem with hmem | hmem
          · exact hInv.wait_not_holder x hx hmem
          · rw [List.mem_singleton.1 hmem] at hx; exact htidW hx
        · rw [List.nodup_append]
          refine ⟨hInv.holders_nodup, List.nodup_singleton _, ?_⟩
          intro a ha hb
          rw [show a = tid by simpa using hb] at ha
          exact htidH ha
        · show (s.holders ++ [tid]).length ≤ s.numCavities
          rw [List.length_append, List.length_singleton]
          omega
        · intro x hx
          rcases List.mem_append.1 hx with hx | hx
          · obtain ⟨u, hu, huid, hust⟩ := hInv.holders_active x hx
            have hxt : x ≠ tid := fun hc => htidH (hc ▸ hx)
            exact ⟨u, mem_setTire_of_ne hu (fun hc => hxt (by rw [← huid]; exact hc)),
              huid, hust⟩
          · rw [List.mem_singleton.1 hx]
            refine ⟨_, List.mem_map.2 ⟨t0, ht0, by rw [if_pos hid0]⟩, ?_, ?_⟩
            · exact hid0
            · simp
        · intro t ht hst
          obtain ⟨u, hu, he⟩ := of_mem_setTire ht
          by_cases h2 : u.id = tid
          · rw [if_pos h2] at he
            rw [he] at hst
            exact absurd hst (by simp)
          · rw [if_neg h2] at he
            rw [he]
            exact List.mem_append_left _ (hInv.curing_holder u hu (he ▸ hst))
        · intro t ht hst
          obtain ⟨u, hu, he⟩ := of_mem_setTire ht
          by_cases h2 : u.id = tid
          · rw [if_pos h2] at he
            rw [he] at hst
            exact absurd hst (by simp)
          · rw [if_neg h2] at he
            rw [he]
            exact List.mem_append_left _ (hInv.finished_holder u hu (he ▸ hst))
        · intro t ht hst
          obtain ⟨u, hu, he⟩ := of_mem_setTire ht
          by_cases h2 : u.id = tid
          · rw [if_pos h2] at he
            rw [he] at hst
            exact absurd hst (by simp)
          · rw [if_neg h2] at he
            rw [he]
            exact hInv.curing_pos_mem u hu (he ▸ hst)
        · intro t ht u hu hts hus hpos
          obtain ⟨a, ha, hea⟩ := of_mem_setTire ht
          obtain ⟨b, hb, heb⟩ := of_mem_setTire hu
          by_cases h2 : a.id = tid
          · rw [if_pos h2] at hea
            rw [hea] at hts
            exact absurd hts (by simp)
          · rw [if_neg h2] at hea
            by_cases h3 : b.id = tid
            · rw [if_pos h3] at heb
              rw [heb] at hus
              exact absurd hus (by simp)
            · rw [if_neg h3] at heb
              rw [hea, heb]
              exact hInv.curing_pos_inj a ha b hb (hea ▸ hts) (heb ▸ hus)
                (by rw [← hea, ← heb]; exact hpos)
      case isFalse hcond =>
        simp only [Option.some.injEq] at h
        subst h
        refine ⟨?_, ?_, ?_, hlifeR, ?_, ?_, ?_, ?_, ?_, ?_, hInv.holders_nodup,
          hInv.holders_le, ?_, ?_, ?_, ?_, ?_⟩
        · rw [setTire_map_id hidf]; exact hInv.ids_nodup
        · intro t ht
          obtain ⟨u, hu, hidu⟩ := setTire_id_of_mem hidf ht
          exact hidu ▸ hInv.ids_lt u hu
        · rw [setTire_length]; exact hInv.count_eq
        · intro x hx
          refine EvOk_transfer ?_ ?_ ?_ (hevR x hx)
          · exact fun y st hy hh =>
              (hasT_setTire_of_ne hidf (hneR x hx y hy)).2 hh
          · exact fun y _ hy => hy
          · intro y hy hyW hc
            rcases List.mem_append.1 hc with hc | hc
            · exact hyW hc
            · exact hneR x hx y hy (List.mem_singleton.1 hc)
        · intro x
          constructor
          · intro hx
            rcases List.mem_append.1 hx with hx | hx
            · have hxt : x ≠ tid := fun hc => htidQ (hc ▸ hx)
              exact (hasT_setTire_of_ne hidf hxt).2 ((hInv.queue_iff x).1 hx)
            · rw [List.mem_singleton.1 hx]
              exact (hasT_setTire_self hidf hstf).2 ⟨rfl, t0, ht0, hid0⟩
          · intro hh
            by_cases hxt : x = tid
            · rw [hxt]; exact List.mem_append_right _ (by simp)
            · exact List.mem_append_left _
                ((hInv.queue_iff x).2 ((hasT_setTire_of_ne hidf hxt).1 hh))
        · rw [List.nodup_append]
          refine ⟨hInv.queue_nodup, List.nodup_singleton _, ?_⟩
          intro a ha hb
          rw [show a = tid by simpa using hb] at ha
          exact htidQ ha
        · intro x hx
          rcases List.mem_append.1 hx with hx | hx
          · have hxt : x ≠ tid := fun hc => htidW (hc ▸ hx)
            exact (hasT_setTire_of_ne hidf hxt).2 (hInv.wait_status x hx)
          · rw [List.mem_singleton.1 hx]
            exact (hasT_setTire_self hidf hstf).2 ⟨rfl, t0, ht0, hid0⟩
        · intro x hx
          rcases List.mem_append.1 hx with hx | hx
          · exact hInv.wait_not_holder x hx
          · rw [List.mem_singleton.1 hx]; exact htidH
        · rw [List.nodup_append]
          refine ⟨hInv.wait_nodup, List.nodup_singleton _, ?_⟩
          intro a ha hb
          rw [show a = tid by simpa using hb] at ha
          exact htidW ha
        · intro x hx
          obtain ⟨u, hu, huid, hust⟩ := hInv.holders_active x hx
          have hxt : x ≠ tid := fun hc => htidH (hc ▸ hx)
          exact ⟨u, mem_setTire_of_ne hu (fun hc => hxt (by rw [← huid]; exact hc)),
            huid, hust⟩
        · intro t ht hst
          obtain ⟨u, hu, he⟩ := of_mem_setTire ht
          by_cases h2 : u.id = tid
          · rw [if_pos h2] at he
            rw [he] at hst
            exact absurd hst (by simp)
          · rw [if_neg h2] at he
            rw [he]
            exact hInv.curing_holder u hu (he ▸ hst)
        · intro t ht hst
          obtain ⟨u, hu, he⟩ := of_mem_setTire ht
          by_cases h2 : u.id = tid
          · rw [if_pos h2] at he
            rw [he] at hst
            exact absurd hst (by simp)
          · rw [if_neg h2] at he
            rw [he]
            exact hInv.finished_holder u hu (he ▸ hst)
        · intro t ht hst
          obtain ⟨u, hu, he⟩ := of_mem_setTire ht
          by_cases h2 : u.id = tid
          · rw [if_pos h2] at he
            rw [he] at hst
            exact absurd hst (by simp)
          · rw [if_neg h2] at he
            rw [he]
            exact hInv.curing_pos_mem u hu (he ▸ hst)
        · intro t ht u hu hts hus hpos
          obtain ⟨a, ha, hea⟩ := of_mem_setTire ht
          obtain ⟨b, hb, heb⟩ := of_mem_setTire hu
          by_cases h2 : a.id = tid
          · rw [if_pos h2] at hea
            rw [hea] at hts
            exact absurd hts (by simp)
          · rw [if_neg h2] at hea
            by_cases h3 : b.id = tid
            · rw [if_pos h3] at heb
              rw [heb] at hus
              exact absurd hus (by simp)
            · rw [if_neg h3] at heb
              rw [hea, heb]
              exact hInv.curing_pos_inj a ha b hb (hea ▸ hts) (heb ▸ hus)
                (by rw [← hea, ← heb]; exact hpos)
    | grantCure tid =>
      simp only [stepCont, sched] at h
      obtain ⟨hhasG, htidH, htidW⟩ := hevE
      obtain ⟨t0, ht0, hid0, hst0⟩ := hhasG
      rw [lifeTids_cons_some ⟨tm, pr, sq, Cont.grantCure tid⟩ rest rfl] at hlife
      have htidfresh : tid ∉ lifeTids rest := (List.nodup_cons.1 hlife).1
      have hlifeR : (lifeTids rest).Nodup := (List.nodup_cons.1 hlife).2
      have hneR : ∀ x ∈ rest, ∀ y : Nat, x.cont.tid? = some y → y ≠ tid := by
        intro x hx y hy hc
        exact htidfresh (mem_lifeTids.2 ⟨x, hx, hc ▸ hy⟩)
      have hocc : ∀ u ∈ s.activeTires, u.status = Status.curing →
          u.pos ∈ (s.activeTires.filter (fun t => t.status == Status.curing)).map
            (fun t => t.pos) :=
        fun u hu hust => List.mem_map.2 ⟨u, List.mem_filter.2 ⟨hu, by simp [hust]⟩, rfl⟩
      split at h
      · exact absurd h (by simp)
      case h_2 cavp hfind =>
        simp only [Option.some.injEq] at h
        subst h
        have hcavMem : cavp ∈ CAVITY_POSITIONS := List.mem_of_find?_eq_some hfind
        have hcav0 := List.find?_some hfind
        have hcavFree := of_decide_eq_true hcav0
        have hidf : ∀ t : Tire,
            (Tire.mk t.id cavp t.color Status.curing).id = t.id := fun t => rfl
        have hstf : ∀ t : Tire,
            (Tire.mk t.id cavp t.color Status.curing).status = Status.curing :=
          fun t => rfl
        refine ⟨?_, ?_, ?_, ?_, ?_, ?_, ?_, ?_, hInv.wait_not_holder, hInv.wait_nodup,
          hInv.holders_nodup, hInv.holders_le, ?_, ?_, ?_, ?_, ?_⟩
        · rw [setTire_map_id hidf]; exact hInv.ids_nodup
        · intro t ht
          obtain ⟨u, hu, hidu⟩ := setTire_id_of_mem hidf ht
          exact hidu ▸ hInv.ids_lt u hu
        · rw [setTire_length]; exact hInv.count_eq
        · rw [lifeTids_append,
            show lifeTids [⟨tm + cd s.cureIdx, 1, s.nextSeq, Cont.cureDone tid⟩] = [tid] by
              simp [lifeTids, Cont.tid?]]
          rw [List.nodup_append]
          refine ⟨hlifeR, List.nodup_singleton _, ?_⟩
          intro a ha hb
          rw [show a = tid by simpa using hb] at ha
          exact htidfresh ha
        · intro x hx
          rcases List.mem_append.1 hx with hx | hx
          · refine EvOk_transfer ?_ ?_ ?_ (hevR x hx)
            · exact fun y st hy hh =>
                (hasT_setTire_of_ne hidf (hneR x hx y hy)).2 hh
            · exact fun y _ hy => hy
            · exact fun y _ hy => hy
          · rw [List.mem_singleton.1 hx]
            exact (hasT_setTire_self hidf hstf).2 ⟨rfl, t0, ht0, hid0⟩
        · intro x
          constructor
          · intro hx
            have hx2 := (hInv.queue_nodup.mem_erase_iff.1 hx)
            exact (hasT_setTire_of_ne hidf hx2.1).2 ((hInv.queue_iff x).1 hx2.2)
          · intro hh
            by_cases hxt : x = tid
            · rw [hxt] at hh
              obtain ⟨habs, _⟩ := (hasT_setTire_self hidf hstf).1 hh
              exact absurd habs (by simp)
            · exact (List.mem_erase_of_ne hxt).2
                ((hInv.queue_iff x).2 ((hasT_setTire_of_ne hidf hxt).1 hh))
        · exact List.Nodup.erase tid hInv.queue_nodup
        · intro x hx
          have hxt : x ≠ tid := fun hc => htidW (hc ▸ hx)
          exact (hasT_setTire_of_ne hidf hxt).2 (hInv.wait_status x hx)
        · intro x hx
          obtain ⟨u, hu, huid, hust⟩ := hInv.holders_active x hx
          by_cases hxt : x = tid
          · subst hxt
            refine ⟨_, List.mem_map.2 ⟨t0, ht0, by rw [if_pos hid0]⟩, ?_, ?_⟩
            · exact hid0
            · simp
          · exact ⟨u, mem_setTire_of_ne hu (fun hc => hxt (by rw [← huid]; exact hc)),
              huid, hust⟩
        · intro t ht hst
          obtain ⟨u, hu, he⟩ := of_mem_setTire ht
          by_cases h2 : u.id = tid
          · rw [if_pos h2] at he
            rw [he]
            show u.id ∈ s.holders
            rw [h2]
            exact htidH
          · rw [if_neg h2] at he
            rw [he]
            exact hInv.curing_holder u hu (by rw [← he]; exact hst)
        · intro t ht hst
          obtain ⟨u, hu, he⟩ := of_mem_setTire ht
          by_cases h2 : u.id = tid
          · rw [if_pos h2] at he
            rw [he] at hst
            exact absurd hst (by simp)
          · rw [if_neg h2] at he
            rw [he]
            exact hInv.finished_holder u hu (by rw [← he]; exact hst)
        · intro t ht hst
          obtain ⟨u, hu, he⟩ := of_mem_setTire ht
          by_cases h2 : u.id = tid
          · rw [if_pos h2] at he
            rw [he]
            exact hcavMem
          · rw [if_neg h2] at he
            rw [he]
            exact hInv.curing_pos_mem u hu (by rw [← he]; exact hst)
        · intro t ht u hu hts hus hpos
          obtain ⟨a, ha, hea⟩ := of_mem_setTire ht
          obtain ⟨b, hb, heb⟩ := of_mem_setTire hu
          by_cases h2 : a.id = tid
          · rw [if_pos h2] at hea
            by_cases h3 : b.id = tid
            · rw [if_pos h3] at heb
              rw [hea, heb]
              show a.id = b.id
              rw [h2, h3]
            · rw [if_neg h3] at heb
              exfalso
              apply hcavFree
              have hc : cavp = b.pos := by rw [← heb]; rw [← hpos, hea]
              rw [hc]
              exact hocc b hb (by rw [← heb]; exact hus)
          · rw [if_neg h2] at hea
            by_cases h3 : b.id = tid
            · rw [if_pos h3] at heb
              exfalso
              apply hcavFree
              have hc : cavp = a.pos := by rw [← hea]; rw [hpos, heb]
              rw [hc]
              exact hocc a ha (by rw [← hea]; exact hts)
            · rw [if_neg h3] at heb
              rw [hea, heb]
              exact hInv.curing_pos_inj a ha b hb (by rw [← hea]; exact hts)
                (by rw [← heb]; exact hus) (by rw [← hea, ← heb]; exact hpos)
    | cureDone tid =>
      simp only [stepCont, sched, Option.some.injEq] at h
      subst h
      obtain ⟨t0, ht0, hid0, hst0⟩ := hevE
      rw [lifeTids_cons_some ⟨tm, pr, sq, Cont.cureDone tid⟩ rest rfl] at hlife
      have htidfresh : tid ∉ lifeTids rest := (List.nodup_cons.1 hlife).1
      have hlifeR : (lifeTids rest).Nodup := (List.nodup_cons.1 hlife).2
      have hneR : ∀ x ∈ rest, ∀ y : Nat, x.cont.tid? = some y → y ≠ tid := by
        intro x hx y hy hc
        exact htidfresh (mem_lifeTids.2 ⟨x, hx, hc ▸ hy⟩)
      have htidH : tid ∈ s.holders := hid0 ▸ hInv.curing_holder t0 ht0 hst0
      have htidQ : tid ∉ s.gantryQueue := by
        intro hq
        have := hasT_status_eq hInv.ids_nodup ((hInv.queue_iff tid).1 hq) ⟨t0, ht0, hid0, hst0⟩
        simp at this
      have htidW : tid ∉ s.waitList := by
        intro hw
        have := hasT_status_eq hInv.ids_nodup (hInv.wait_status tid hw) ⟨t0, ht0, hid0, hst0⟩
        simp at this
      have hidf : ∀ t : Tire,
          (Tire.mk t.id FINISHING_POS "black" Status.finished).id = t.id := fun t => rfl
      have hstf : ∀ t : Tire,
          (Tire.mk t.id FINISHING_POS "black" Status.finished).status = Status.finished :=
        fun t => rfl
      refine ⟨?_, ?_, ?_, ?_, ?_, ?_, hInv.queue_nodup, ?_, hInv.wait_not_holder,
        hInv.wait_nodup, hInv.holders_nodup, hInv.holders_le, ?_, ?_, ?_, ?_, ?_⟩
      · rw [setTire_map_id hidf]; exact hInv.ids_nodup
      · intro t ht
        obtain ⟨u, hu, hidu⟩ := setTire_id_of_mem hidf ht
        exact hidu ▸ hInv.ids_lt u hu
      · rw [setTire_length]; exact hInv.count_eq
      · rw [lifeTids_append,
          show lifeTids [⟨tm + 20, 1, s.nextSeq, Cont.finishDone tid⟩] = [tid] by
            simp [lifeTids, Cont.tid?]]
        rw [List.nodup_append]
        refine ⟨hlifeR, List.nodup_singleton _, ?_⟩
        intro a ha hb
        rw [show a = tid by simpa using hb] at ha
        exact htidfresh ha
      · intro x hx
        rcases List.mem_append.1 hx with hx | hx
        · refine EvOk_transfer ?_ ?_ ?_ (hevR x hx)
          · exact fun y st hy hh =>
              (hasT_setTire_of_ne hidf (hneR x hx y hy)).2 hh
          · exact fun y _ hy => hy
          · exact fun y _ hy => hy
        · rw [List.mem_singleton.1 hx]
          exact (hasT_setTire_self hidf hstf).2 ⟨rfl, t0, ht0, hid0⟩
      · intro x
        constructor
        · intro hx
          have hxt : x ≠ tid := fun hc => htidQ (hc ▸ hx)
          exact (hasT_setTire_of_ne hidf hxt).2 ((hInv.queue_iff x).1 hx)
        · intro hh
          by_cases hxt : x = tid
          · rw [hxt] at hh
            obtain ⟨habs, _⟩ := (hasT_setTire_self hidf hstf).1 hh
            exact absurd habs (by simp)
          · exact (hInv.queue_iff x).2 ((hasT_setTire_of_ne hidf hxt).1 hh)
      · intro x hx
        have hxt : x ≠ tid := fun hc => htidW (hc ▸ hx)
        exact (hasT_setTire_of_ne hidf hxt).2 (hInv.wait_status x hx)
      · intro x hx
        obtain ⟨u, hu, huid, hust⟩ := hInv.holders_active x hx
        by_cases hxt : x = tid
        · subst hxt
          refine ⟨_, List.mem_map.2 ⟨t0, ht0, by rw [if_pos hid0]⟩, ?_, ?_⟩
          · exact hid0
          · simp
        · exact ⟨u, mem_setTire_of_ne hu (fun hc => hxt (by rw [← huid]; exact hc)),
            huid, hust⟩
      · intro t ht hst
        obtain ⟨u, hu, he⟩ := of_mem_setTire ht
        by_cases h2 : u.id = tid
        · rw [if_pos h2] at he
          rw [he] at hst
          exact absurd hst (by simp)
        · rw [if_neg h2] at he
          rw [he]
          exact hInv.curing_holder u hu (by rw [← he]; exact hst)
      · intro t ht hst
        obtain ⟨u, hu, he⟩ := of_mem_setTire ht
        by_cases h2 : u.id = tid
        · rw [if_pos h2] at he
          rw [he]
          show u.id ∈ s.holders
          rw [h2]
          exact htidH
        · rw [if_neg h2] at he
          rw [he]
          exact hInv.finished_holder u hu (by rw [← he]; exact hst)
      · intro t ht hst
        obtain ⟨u, hu, he⟩ := of_mem_setTire ht
        by_cases h2 : u.id = tid
        · rw [if_pos h2] at he
          rw [he] at hst
          exact absurd hst (by simp)
        · rw [if_neg h2] at he
          rw [he]
          exact hInv.curing_pos_mem u hu (by rw [← he]; exact hst)
      · intro t ht u hu hts hus hpos
        obtain ⟨a, ha, hea⟩ := of_mem_setTire ht
        obtain ⟨b, hb, heb⟩ := of_mem_setTire hu
        by_cases h2 : a.id = tid
        · rw [if_pos h2] at hea
          rw [hea] at hts
          exact absurd hts (by simp)
        · rw [if_neg h2] at hea
          by_cases h3 : b.id = tid
          · rw [if_pos h3] at heb
            rw [heb] at hus
            exact absurd hus (by simp)
          · rw [if_neg h3] at heb
            rw [hea, heb]
            exact hInv.curing_pos_inj a ha b hb (by rw [← hea]; exact hts)
              (by rw [← heb]; exact hus) (by rw [← hea, ← heb]; exact hpos)
    | finishDone tid =>
      simp only [stepCont, sched] at h
      obtain ⟨t0, ht0, hid0, hst0⟩ := hevE
      rw [lifeTids_cons_some ⟨tm, pr, sq, Cont.finishDone tid⟩ rest rfl] at hlife
      have htidfresh : tid ∉ lifeTids rest := (List.nodup_cons.1 hlife).1
      have hlifeR : (lifeTids rest).Nodup := (List.nodup_cons.1 hlife).2
      have hneR : ∀ x ∈ rest, ∀ y : Nat, x.cont.tid? = some y → y ≠ tid := by
        intro x hx y hy hc
        exact htidfresh (mem_lifeTids.2 ⟨x, hx, hc ▸ hy⟩)
      have htidH : tid ∈ s.holders := hid0 ▸ hInv.finished_holder t0 ht0 hst0
      have htidQ : tid ∉ s.gantryQueue := by
        intro hq
        have := hasT_status_eq hInv.ids_nodup ((hInv.queue_iff tid).1 hq) ⟨t0, ht0, hid0, hst0⟩
        simp at this
      have htidW : tid ∉ s.waitList := by
        intro hw
        have := hasT_status_eq hInv.ids_nodup (hInv.wait_status tid hw) ⟨t0, ht0, hid0, hst0⟩
        simp at this
      have hlenA := eraseP_tire_length ht0 hid0
      have hce := hInv.count_eq
      split at h
      case h_1 hWnil =>
        simp only [Option.some.injEq] at h
        subst h
        refine ⟨eraseP_tire_nodup hInv.ids_nodup, ?_, ?_, hlifeR, ?_, ?_, hInv.queue_nodup,
          ?_, ?_, hInv.wait_nodup, List.Nodup.erase tid hInv.holders_nodup, ?_, ?_, ?_, ?_,
          ?_, ?_⟩
        · intro t ht
          exact hInv.ids_lt t (List.mem_of_mem_eraseP ht)
        · show s.tireCount = s.totalFinished + 1 +
            (s.activeTires.eraseP (fun t => t.id == tid)).length + 1
          omega
        · intro x hx
          refine EvOk_transfer ?_ ?_ ?_ (hevR x hx)
          · exact fun y st hy hh => (hasT_eraseP_of_ne (hneR x hx y hy)).2 hh
          · exact fun y hy hyH =>
              (List.mem_erase_of_ne (hneR x hx y hy)).2 hyH
          · exact fun y _ hy => hy
        · intro x
          constructor
          · intro hx
            have hh := (hInv.queue_iff x).1 hx
            have hxt : x ≠ tid := by
              intro hc
              subst hc
              have := hasT_status_eq hInv.ids_nodup hh ⟨t0, ht0, hid0, hst0⟩
              simp at this
            exact (hasT_eraseP_of_ne hxt).2 hh
          · intro hh
            by_cases hxt : x = tid
            · subst hxt
              exact absurd hh (not_hasT_eraseP_self hInv.ids_nodup)
            · exact (hInv.queue_iff x).2 ((hasT_eraseP_of_ne hxt).1 hh)
        · intro x hx
          have hxt : x ≠ tid := fun hc => htidW (hc ▸ hx)
          exact (hasT_eraseP_of_ne hxt).2 (hInv.wait_status x hx)
        · intro x hx hc
          exact hInv.wait_not_holder x hx (List.mem_of_mem_erase hc)
        · exact (List.erase_sublist tid s.holders).length_le.trans hInv.holders_le
        · intro x hx
          obtain ⟨hxt, hxH⟩ := hInv.holders_nodup.mem_erase_iff.1 hx
          obtain ⟨u, hu, huid, hust⟩ := hInv.holders_active x hxH
          refine ⟨u, ?_, huid, hust⟩
          exact (List.mem_eraseP_of_neg (by simp [huid, hxt])).2 hu
        · intro t ht hst
          have htA := List.mem_of_mem_eraseP ht
          have hne := eraseP_tire_id_ne hInv.ids_nodup t ht
          exact (List.mem_erase_of_ne hne).2 (hInv.curing_holder t htA hst)
        · intro t ht hst
          have htA := List.mem_of_mem_eraseP ht
          have hne := eraseP_tire_id_ne hInv.ids_nodup t ht
          exact (List.mem_erase_of_ne hne).2 (hInv.finished_holder t htA hst)
        · intro t ht hst
          exact hInv.curing_pos_mem t (List.mem_of_mem_eraseP ht) hst
        · intro t ht u hu hts hus hpos
          exact hInv.curing_pos_inj t (List.mem_of_mem_eraseP ht) u
            (List.mem_of_mem_eraseP hu) hts hus hpos
      case h_2 w rest2 hWcons =>
        simp only [Option.some.injEq] at h
        subst h
        have hwW : w ∈ s.waitList := by rw [hWcons]; exact List.mem_cons_self w rest2
        obtain ⟨tw, htw, hwid, hwst⟩ := hInv.wait_status w hwW
        have hwH : w ∉ s.holders := hInv.wait_not_holder w hwW
        have hwtid : w ≠ tid := by
          intro hc
          subst hc
          have := hasT_status_eq hInv.ids_nodup ⟨tw, htw, hwid, hwst⟩ ⟨t0, ht0, hid0, hst0⟩
          simp at this
        have hwfresh : w ∉ lifeTids rest := by
          intro hw
          obtain ⟨en, hen, hy⟩ := mem_lifeTids.1 hw
          have hok := hevR en hen
          cases hc : en.cont with
          | startProduction => rw [hc] at hy; simp [Cont.tid?] at hy
          | spawn => rw [hc] at hy; simp [Cont.tid?] at hy
          | startLife y =>
            rw [hc] at hy hok
            simp only [Cont.tid?, Option.some.injEq] at hy
            subst hy
            have := hasT_status_eq hInv.ids_nodup hok ⟨tw, htw, hwid, hwst⟩
            simp at this
          | grantCure y =>
            rw [hc] at hy hok
            simp only [Cont.tid?, Option.some.injEq] at hy
            subst hy
            exact hok.2.2 hwW
          | cureDone y =>
            rw [hc] at hy hok
            simp only [Cont.tid?, Option.some.injEq] at hy
            subst hy
            have := hasT_status_eq hInv.ids_nodup hok ⟨tw, htw, hwid, hwst⟩
            simp at this
          | finishDone y =>
            rw [hc] at hy hok
            simp only [Cont.tid?, Option.some.injEq] at hy
            subst hy
            have := hasT_status_eq hInv.ids_nodup hok ⟨tw, htw, hwid, hwst⟩
            simp at this
        have hrest2W : ∀ x ∈ rest2, x ∈ s.waitList := by
          intro x hx
          rw [hWcons]
          exact List.mem_cons_of_mem w hx
        have hWnodup : (w :: rest2).Nodup := hWcons ▸ hInv.wait_nodup
        have hwrest2 : w ∉ rest2 := (List.nodup_cons.1 hWnodup).1
        refine ⟨eraseP_tire_nodup hInv.ids_nodup, ?_, ?_, ?_, ?_, ?_, hInv.queue_nodup,
          ?_, ?_, (List.nodup_cons.1 hWnodup).2, ?_, ?_, ?_, ?_, ?_, ?_, ?_⟩
        · intro t ht
          exact hInv.ids_lt t (List.mem_of_mem_eraseP ht)
        · show s.tireCount = s.totalFinished + 1 +
            (s.activeTires.eraseP (fun t => t.id == tid)).length + 1
          omega
        · rw [lifeTids_append,
            show lifeTids [⟨tm, 1, s.nextSeq, Cont.grantCure w⟩] = [w] by
              simp [lifeTids, Cont.tid?]]
          rw [List.nodup_append]
          refine ⟨hlifeR, List.nodup_singleton _, ?_⟩
          intro a ha hb
          rw [show a = w by simpa using hb] at ha
          exact hwfresh ha
        · intro x hx
          rcases List.mem_append.1 hx with hx | hx
          · refine EvOk_transfer ?_ ?_ ?_ (hevR x hx)
            · exact fun y st hy hh => (hasT_eraseP_of_ne (hneR x hx y hy)).2 hh
            · exact fun y hy hyH => List.mem_append_left _
                ((List.mem_erase_of_ne (hneR x hx y hy)).2 hyH)
            · exact fun y _ hy hc => hy (hrest2W y hc)
          · rw [List.mem_singleton.1 hx]
            refine ⟨⟨tw, ?_, hwid, hwst⟩, List.mem_append_right _ (by simp), hwrest2⟩
            exact (List.mem_eraseP_of_neg (by simp [hwid, hwtid])).2 htw
        · intro x
          constructor
          · intro hx
            have hh := (hInv.queue_iff x).1 hx
            have hxt : x ≠ tid := by
              intro hc
              subst hc
              have := hasT_status_eq hInv.ids_nodup hh ⟨t0, ht0, hid0, hst0⟩
              simp at this
            exact (hasT_eraseP_of_ne hxt).2 hh
          · intro hh
            by_cases hxt : x = tid
            · subst hxt
              exact absurd hh (not_hasT_eraseP_self hInv.ids_nodup)
            · exact (hInv.queue_iff x).2 ((hasT_eraseP_of_ne hxt).1 hh)
        · intro x hx
          have hxW := hrest2W x hx
          have hxt : x ≠ tid := fun hc => htidW (hc ▸ hxW)
          exact (hasT_eraseP_of_ne hxt).2 (hInv.wait_status x hxW)
        · intro x hx hc
          rcases List.mem_append.1 hc with hc | hc
          · exact hInv.wait_not_holder x (hrest2W x hx) (List.mem_of_mem_erase hc)
          · rw [List.mem_singleton.1 hc] at hx
            exact hwrest2 hx
        · rw [List.nodup_append]
          refine ⟨List.Nodup.erase tid hInv.holders_nodup, List.nodup_singleton _, ?_⟩
          intro a ha hb
          rw [show a = w by simpa using hb] at ha
          exact hwH (List.mem_of_mem_erase ha)
        · show (s.holders.erase tid ++ [w]).length ≤ s.numCavities
          rw [List.length_append, List.length_singleton]
          have hle := List.length_erase_of_mem htidH
          have hpos := List.length_pos_of_mem htidH
          have := hInv.holders_le
          omega
        · intro x hx
          rcases List.mem_append.1 hx with hx | hx
          · obtain ⟨hxt, hxH⟩ := hInv.holders_nodup.mem_erase_iff.1 hx
            obtain ⟨u, hu, huid, hust⟩ := hInv.holders_active x hxH
            refine ⟨u, ?_, huid, hust⟩
            exact (List.mem_eraseP_of_neg (by simp [huid, hxt])).2 hu
          · rw [List.mem_singleton.1 hx]
            refine ⟨tw, ?_, hwid, by rw [hwst]; simp⟩
            exact (List.mem_eraseP_of_neg (by simp [hwid, hwtid])).2 htw
        · intro t ht hst
          have htA := List.mem_of_mem_eraseP ht
          have hne := eraseP_tire_id_ne hInv.ids_nodup t ht
          exact List.mem_append_left _
            ((List.mem_erase_of_ne hne).2 (hInv.curing_holder t htA hst))
        · intro t ht hst
          have htA := List.mem_of_mem_eraseP ht
          have hne := eraseP_tire_id_ne hInv.ids_nodup t ht
          exact List.mem_append_left _
            ((List.mem_erase_of_ne hne).2 (hInv.finished_holder t htA hst))
        · intro t ht hst
          exact hInv.curing_pos_mem t (List.mem_of_mem_eraseP ht) hst
        · intro t ht u hu hts hus hpos
          exact hInv.curing_pos_inj t (List.mem_of_mem_eraseP ht) u
            (List.mem_of_mem_eraseP hu) hts hus hpos

end SimulationV1
namespace SimulationV1

/-- Every reachable state satisfies the invariant. -/
theorem reachable_inv {bd cd : Nat → Rat} {nc : Nat} {bt ct : Rat} {s : SimState}
    (h : Reachable bd cd nc bt ct s) : Inv s := by
  induction h with
  | init => exact inv_init nc bt ct
  | next _ hstep ih => exact inv_step ih hstep

/-- Iterating the event loop preserves reachability. -/
theorem stepN_reachable {bd cd : Nat → Rat} {nc : Nat} {bt ct : Rat} :
    ∀ {n : Nat} {s s1 : SimState}, Reachable bd cd nc bt ct s →
      stepN bd cd n s = some s1 → Reachable bd cd nc bt ct s1 := by
  intro n
  induction n with
  | zero =>
    intro s s1 hr h
    simp only [stepN, Option.some.injEq] at h
    exact h ▸ hr
  | succ n ih =>
    intro s s1 hr h
    simp only [stepN] at h
    cases hs : step bd cd s with
    | none => rw [hs] at h; simp at h
    | some s2 =>
      rw [hs] at h
      simp only [Option.some_bind] at h
      exact ih (Reachable.next hr hs) h

/-- A step never changes the configuration fields. -/
theorem step_config {bd cd : Nat → Rat} {s s1 : SimState} (h : step bd cd s = some s1) :
    s1.numCavities = s.numCavities ∧ s1.buildTime = s.buildTime ∧ s1.cureTime = s.cureTime := by
  unfold step at h
  cases hp : popMin s.events with
  | none => rw [hp] at h; exact absurd h (by simp)
  | some p =>
    obtain ⟨e, rest⟩ := p
    rw [hp] at h
    obtain ⟨tm, pr, sq, c⟩ := e
    cases c with
    | startProduction =>
      simp only [stepCont, sched, Option.some.injEq] at h
      subst h; exact ⟨rfl, rfl, rfl⟩
    | spawn =>
      simp only [stepCont, sched, Option.some.injEq] at h
      subst h; exact ⟨rfl, rfl, rfl⟩
    | startLife tid =>
      simp only [stepCont, sched] at h
      split at h <;> (simp only [Option.some.injEq] at h; subst h; exact ⟨rfl, rfl, rfl⟩)
    | grantCure tid =>
      simp only [stepCont, sched] at h
      split at h
      · exact absurd h (by simp)
      · simp only [Option.some.injEq] at h; subst h; exact ⟨rfl, rfl, rfl⟩
    | cureDone tid =>
      simp only [stepCont, sched, Option.some.injEq] at h
      subst h; exact ⟨rfl, rfl, rfl⟩
    | finishDone tid =>
      simp only [stepCont, sched] at h
      split at h <;> (simp only [Option.some.injEq] at h; subst h; exact ⟨rfl, rfl, rfl⟩)

/-- The configuration of a reachable state is the one fixed at construction. -/
theorem reachable_config {bd cd : Nat → Rat} {nc : Nat} {bt ct : Rat} {s : SimState}
    (h : Reachable bd cd nc bt ct s) :
    s.numCavities = nc ∧ s.buildTime = bt ∧ s.cureTime = ct := by
  induction h with
  | init => exact ⟨rfl, rfl, rfl⟩
  | next _ hstep ih =>
    obtain ⟨h1, h2, h3⟩ := step_config hstep
    exact ⟨h1.trans ih.1, h2.trans ih.2.1, h3.trans ih.2.2⟩

theorem sublist_cons_cases {α : Type} {l : List α} {a : α} {xs : List α}
    (h : xs.Sublist (a :: l)) : xs.Sublist l ∨ ∃ ys, xs = a :: ys ∧ ys.Sublist l := by
  cases h with
  | cons _ h2 => exact Or.inl h2
  | cons₂ _ h2 => exact Or.inr ⟨_, rfl, h2⟩

/-- What one event-loop step does to the tires, the counter and the wait
queue: every active unit either keeps its status, advances to the next
status, or (when Finished) is retired with its slot released and the
counter incremented; new units enter as Building; the counter grows by 0
or 1; the wait queue is only kept, appended to at the tail, or popped at
the head with the popped waiter granted a slot. -/
theorem step_effects {bd cd : Nat → Rat} {s s1 : SimState} (hInv : Inv s)
    (h : step bd cd s = some s1) :
    (∀ t ∈ s.activeTires,
        (∃ u ∈ s1.activeTires, u.id = t.id ∧
          (u.status = t.status ∨ u.status.rank = t.status.rank + 1)) ∨
        (t.status = .finished ∧ (∀ u ∈ s1.activeTires, u.id ≠ t.id) ∧ t.id ∉ s1.holders ∧
          s1.totalFinished = s.totalFinished + 1)) ∧
    (∀ u ∈ s1.activeTires, (∀ t ∈ s.activeTires, t.id ≠ u.id) → u.status = .building) ∧
    ((s1.totalFinished = s.totalFinished ∧
        ∀ t ∈ s.activeTires, ∃ u ∈ s1.activeTires, u.id = t.id) ∨
      (s1.totalFinished = s.totalFinished + 1 ∧
        ∃ t ∈ s.activeTires, t.status = .finished ∧ (∀ u ∈ s1.activeTires, u.id ≠ t.id) ∧
          t.id ∉ s1.holders)) ∧
    (s1.waitList = s.waitList ∨ (∃ x, s1.waitList = s.waitList ++ [x]) ∨
      (∃ w, s.waitList = w :: s1.waitList ∧ w ∈ s1.holders)) := by
  unfold step at h
  cases hp : popMin s.events with
  | none => rw [hp] at h; exact absurd h (by simp)
  | some p =>
    obtain ⟨e, rest⟩ := p
    rw [hp] at h
    have hperm : s.events.Perm (e :: rest) := popMin_perm hp
    have hevE : EvOk s e.cont :=
      hInv.ev_ok e (hperm.symm.subset (List.mem_cons_self e rest))
    have uniq := List.inj_on_of_nodup_map hInv.ids_nodup
    obtain ⟨tm, pr, sq, c⟩ := e
    cases c with
    | startProduction =>
      simp only [stepCont, sched, Option.some.injEq] at h
      subst h
      refine ⟨?_, ?_, Or.inl ⟨rfl, ?_⟩, Or.inl rfl⟩
      · exact fun t ht => Or.inl ⟨t, ht, rfl, Or.inl rfl⟩
      · exact fun u hu hnew => absurd rfl (hnew u hu)
      · exact fun t ht => ⟨t, ht, rfl⟩
    | spawn =>
      simp only [stepCont, sched, Option.some.injEq] at h
      subst h
      refine ⟨?_, ?_, Or.inl ⟨rfl, ?_⟩, Or.inl rfl⟩
      · exact fun t ht => Or.inl ⟨t, List.mem_append_left _ ht, rfl, Or.inl rfl⟩
      · intro u hu hnew
        rcases List.mem_append.1 hu with hu | hu
        · exact absurd rfl (hnew u hu)
        · rw [List.mem_singleton.1 hu]
      · exact fun t ht => ⟨t, List.mem_append_left _ ht, rfl⟩
    | startLife tid =>
      simp only [stepCont, sched] at h
      have hhasB : hasT s.activeTires tid .building := hevE
      obtain ⟨t0, ht0, hid0, hst0⟩ := hhasB
      have hidf : ∀ t : Tire,
          (Tire.mk t.id (GANTRY_POS.1, GANTRY_POS.2 + (s.gantryQueue.length : Rat) * (1/5))
            t.color Status.inGantry).id = t.id := fun t => rfl
      have hmove : ∀ t ∈ s.activeTires,
          (∃ u ∈ setTire s.activeTires tid (fun t =>
              Tire.mk t.id (GANTRY_POS.1, GANTRY_POS.2 + (s.gantryQueue.length : Rat) * (1/5))
                t.color Status.inGantry), u.id = t.id ∧
            (u.status = t.status ∨ u.status.rank = t.status.rank + 1)) := by
        intro t ht
        by_cases h2 : t.id = tid
        · have hteq : t = t0 := uniq ht ht0 (h2.trans hid0.symm)
          refine ⟨_, List.mem_map.2 ⟨t, ht, rfl⟩, ?_, Or.inr ?_⟩
          · rw [if_pos h2]
          · rw [if_pos h2, show t.status = Status.building from by rw [hteq]; exact hst0]
            rfl
        · refine ⟨t, mem_setTire_of_ne ht h2, rfl, Or.inl rfl⟩
      have hkeep : ∀ t ∈ s.activeTires,
          ∃ u ∈ setTire s.activeTires tid (fun t =>
              Tire.mk t.id (GANTRY_POS.1, GANTRY_POS.2 + (s.gantryQueue.length : Rat) * (1/5))
                t.color Status.inGantry), u.id = t.id := by
        intro t ht
        obtain ⟨u, hu, huid, _⟩ := hmove t ht
        exact ⟨u, hu, huid⟩
      split at h
      case isTrue hcond =>
        simp only [Option.some.injEq] at h
        subst h
        refine ⟨fun t ht => Or.inl (hmove t ht), ?_, Or.inl ⟨rfl, hkeep⟩, Or.inl rfl⟩
        intro u hu hnew
        obtain ⟨t, ht, hidu⟩ := setTire_id_of_mem hidf hu
        exact absurd hidu.symm (hnew t ht)
      case isFalse hcond =>
        simp only [Option.some.injEq] at h
        subst h
        refine ⟨fun t ht => Or.inl (hmove t ht), ?_, Or.inl ⟨rfl, hkeep⟩,
          Or.inr (Or.inl ⟨tid, rfl⟩)⟩
        intro u hu hnew
        obtain ⟨t, ht, hidu⟩ := setTire_id_of_mem hidf hu
        exact absurd hidu.symm (hnew t ht)
    | grantCure tid =>
      simp only [stepCont, sched] at h
      obtain ⟨⟨t0, ht0, hid0, hst0⟩, htidH, htidW⟩ := hevE
      split at h
      · exact absurd h (by simp)
      case h_2 cavp hfind =>
        simp only [Option.some.injEq] at h
        subst h
        have hidf : ∀ t : Tire,
            (Tire.mk t.id cavp t.color Status.curing).id = t.id := fun t => rfl
        have hmove : ∀ t ∈ s.activeTires,
            (∃ u ∈ setTire s.activeTires tid
                (fun t => Tire.mk t.id cavp t.color Status.curing), u.id = t.id ∧
              (u.status = t.status ∨ u.status.rank = t.status.rank + 1)) := by
          intro t ht
          by_cases h2 : t.id = tid
          · have hteq : t = t0 := uniq ht ht0 (h2.trans hid0.symm)
            refine ⟨_, List.mem_map.2 ⟨t, ht, rfl⟩, ?_, Or.inr ?_⟩
            · rw [if_pos h2]
            · rw [if_pos h2, show t.status = Status.inGantry from by rw [hteq]; exact hst0]
              rfl
          · refine ⟨t, mem_setTire_of_ne ht h2, rfl, Or.inl rfl⟩
        refine ⟨fun t ht => Or.inl (hmove t ht), ?_, Or.inl ⟨rfl, ?_⟩, Or.inl rfl⟩
        · intro u hu hnew
          obtain ⟨t, ht, hidu⟩ := setTire_id_of_mem hidf hu
          exact absurd hidu.symm (hnew t ht)
        · intro t ht
          obtain ⟨u, hu, huid, _⟩ := hmove t ht
          exact ⟨u, hu, huid⟩
    | cureDone tid =>
      simp only [stepCont, sched, Option.some.injEq] at h
      subst h
      obtain ⟨t0, ht0, hid0, hst0⟩ := hevE
      have hidf : ∀ t : Tire,
          (Tire.mk t.id FINISHING_POS "black" Status.finished).id = t.id := fun t => rfl
      have hmove : ∀ t ∈ s.activeTires,
          (∃ u ∈ setTire s.activeTires tid
              (fun t => Tire.mk t.id FINISHING_POS "black" Status.finished), u.id = t.id ∧
            (u.status = t.status ∨ u.status.rank = t.status.rank + 1)) := by
        intro t ht
        by_cases h2 : t.id = tid
        · have hteq : t = t0 := uniq ht ht0 (h2.trans hid0.symm)
          refine ⟨_, List.mem_map.2 ⟨t, ht, rfl⟩, ?_, Or.inr ?_⟩
          · rw [if_pos h2]
          · rw [if_pos h2, show t.status = Status.curing from by rw [hteq]; exact hst0]
            rfl
        · refine ⟨t, mem_setTire_of_ne ht h2, rfl, Or.inl rfl⟩
      refine ⟨fun t ht => Or.inl (hmove t ht), ?_, Or.inl ⟨rfl, ?_⟩, Or.inl rfl⟩
      · intro u hu hnew
        obtain ⟨t, ht, hidu⟩ := setTire_id_of_mem hidf hu
        exact absurd hidu.symm (hnew t ht)
      · intro t ht
        obtain ⟨u, hu, huid, _⟩ := hmove t ht
        exact ⟨u, hu, huid⟩
    | finishDone tid =>
      simp only [stepCont, sched] at h
      obtain ⟨t0, ht0, hid0, hst0⟩ := hevE
      split at h
      case h_1 hWnil =>
        simp only [Option.some.injEq] at h
        subst h
        have hout : tid ∉ s.holders.erase tid :=
          fun hc => (hInv.holders_nodup.mem_erase_iff.1 hc).1 rfl
        refine ⟨?_, ?_, Or.inr ⟨rfl, t0, ht0, hst0, ?_, ?_⟩, Or.inl rfl⟩
        · intro t ht
          by_cases h2 : t.id = tid
          · have hteq : t = t0 := uniq ht ht0 (h2.trans hid0.symm)
            refine Or.inr ⟨by rw [hteq]; exact hst0, ?_, ?_, rfl⟩
            · intro u hu
              rw [h2]
              exact eraseP_tire_id_ne hInv.ids_nodup u hu
            · rw [h2]; exact hout
          · exact Or.inl ⟨t, (List.mem_eraseP_of_neg (by simp [h2])).2 ht, rfl, Or.inl rfl⟩
        · intro u hu hnew
          exact absurd rfl (hnew u (List.mem_of_mem_eraseP hu))
        · intro u hu
          rw [hid0]
          exact eraseP_tire_id_ne hInv.ids_nodup u hu
        · rw [hid0]; exact hout
      case h_2 w rest2 hWcons =>
        simp only [Option.some.injEq] at h
        subst h
        have hwW : w ∈ s.waitList := by rw [hWcons]; exact List.mem_cons_self w rest2
        obtain ⟨tw, htw, hwid, hwst⟩ := hInv.wait_status w hwW
        have hwtid : w ≠ tid := by
          intro hc
          subst hc
          have := hasT_status_eq hInv.ids_nodup ⟨tw, htw, hwid, hwst⟩ ⟨t0, ht0, hid0, hst0⟩
          simp at this
        have hout : tid ∉ s.holders.erase tid ++ [w] := by
          intro hc
          rcases List.mem_append.1 hc with hc | hc
          · exact (hInv.holders_nodup.mem_erase_iff.1 hc).1 rfl
          · exact hwtid ((List.mem_singleton.1 hc).symm)
        refine ⟨?_, ?_, Or.inr ⟨rfl, t0, ht0, hst0, ?_, ?_⟩,
          Or.inr (Or.inr ⟨w, hWcons, List.mem_append_right _ (by simp)⟩)⟩
        · intro t ht
          by_cases h2 : t.id = tid
          · have hteq : t = t0 := uniq ht ht0 (h2.trans hid0.symm)
            refine Or.inr ⟨by rw [hteq]; exact hst0, ?_, ?_, rfl⟩
            · intro u hu
              rw [h2]
              exact eraseP_tire_id_ne hInv.ids_nodup u hu
            · rw [h2]; exact hout
          · exact Or.inl ⟨t, (List.mem_eraseP_of_neg (by simp [h2])).2 ht, rfl, Or.inl rfl⟩
        · intro u hu hnew
          exact absurd rfl (hnew u (List.mem_of_mem_eraseP hu))
        · intro u hu
          rw [hid0]
          exact eraseP_tire_id_ne hInv.ids_nodup u hu
        · rw [hid0]; exact hout

end SimulationV1
namespace SimulationV1

theorem cavity_positions_nodup : CAVITY_POSITIONS.Nodup := by decide

theorem find_cavity_isSome {s : SimState} (hInv : Inv s) {tid : Nat}
    (hok : EvOk s (Cont.grantCure tid))
    (hcap : s.numCavities ≤ CAVITY_POSITIONS.length) :
    (CAVITY_POSITIONS.find? (fun p => decide (p ∉
      (s.activeTires.filter (fun t => t.status == Status.curing)).map
        (fun t => t.pos)))).isSome := by
  obtain ⟨⟨t0, ht0, hid0, hst0⟩, htidH, _⟩ := hok
  have hids_nd : ((s.activeTires.filter (fun t => t.status == Status.curing)).map
      Tire.id).Nodup :=
    List.Nodup.sublist (List.Sublist.map Tire.id (List.filter_sublist _)) hInv.ids_nodup
  have htid_not : tid ∉ (s.activeTires.filter (fun t => t.status == Status.curing)).map
      Tire.id := by
    intro hmem
    obtain ⟨u, hu, huid⟩ := List.mem_map.1 hmem
    obtain ⟨huA, hust⟩ := List.mem_filter.1 hu
    have hueq : u = t0 :=
      List.inj_on_of_nodup_map hInv.ids_nodup huA ht0 (huid.trans hid0.symm)
    rw [hueq, hst0] at hust
    simp at hust
  have hsub2 : (tid :: (s.activeTires.filter (fun t => t.status == Status.curing)).map
      Tire.id) ⊆ s.holders := by
    intro a ha
    rcases List.mem_cons.1 ha with rfl | ha
    · exact htidH
    · obtain ⟨u, hu, huid⟩ := List.mem_map.1 ha
      obtain ⟨huA, hust⟩ := List.mem_filter.1 hu
      rw [← huid]
      exact hInv.curing_holder u huA (by simpa using hust)
  have hlen1 : ((s.activeTires.filter (fun t => t.status == Status.curing)).map
      Tire.id).length + 1 ≤ s.holders.length := by
    have h2 := (List.Nodup.subperm (List.nodup_cons.2 ⟨htid_not, hids_nd⟩) hsub2).length_le
    simpa using h2
  by_contra hnone
  rw [Option.not_isSome_iff_eq_none] at hnone
  have hall := List.find?_eq_none.1 hnone
  have hsubC : CAVITY_POSITIONS ⊆ (s.activeTires.filter
      (fun t => t.status == Status.curing)).map (fun t => t.pos) := by
    intro p hp
    have h2 := hall p hp
    have h3 : ¬ (p ∉ (s.activeTires.filter
        (fun t => t.status == Status.curing)).map (fun t => t.pos)) :=
      fun hpo => h2 (decide_eq_true hpo)
    exact not_not.1 h3
  have hCle := (List.Nodup.subperm cavity_positions_nodup hsubC).length_le
  have hocc_len : ((s.activeTires.filter (fun t => t.status == Status.curing)).map
      (fun t => t.pos)).length = ((s.activeTires.filter
      (fun t => t.status == Status.curing)).map Tire.id).length := by
    rw [List.length_map, List.length_map]
  have hle2 := hInv.holders_le
  omega

/-- C6: in every reachable state, the pool occupancy (the number of units
currently granted a cavity slot) never exceeds the capacity that was fixed
at construction; as a list length it is trivially at least 0. -/
theorem c6_occupancy_bounded {bd cd : Nat → Rat} {nc : Nat} {bt ct : Rat} {s : SimState}
    (hr : Reachable bd cd nc bt ct s) :
    s.holders.length ≤ nc ∧ s.numCavities = nc := by
  have h1 := (reachable_inv hr).holders_le
  have h2 := (reachable_config hr).1
  exact ⟨h2 ▸ h1, h2⟩

/-- C9: in every reachable state (the states observable between
continuation executions), the stored `gantry_queue` contains exactly the
active units whose status is In Gantry (the spec's Queued stage), so the
reported queue depth equals the count of Queued units recomputed from the
unit set. -/
theorem c9_queue_projection {bd cd : Nat → Rat} {nc : Nat} {bt ct : Rat} {s : SimState}
    (hr : Reachable bd cd nc bt ct s) :
    (∀ x, x ∈ s.gantryQueue ↔ hasTire s x .inGantry) ∧
    s.gantryQueue.length =
      (s.activeTires.filter (fun t => t.status == Status.inGantry)).length := by
  have hInv := reachable_inv hr
  refine ⟨hInv.queue_iff, ?_⟩
  have hnd2 : ((s.activeTires.filter (fun t => t.status == Status.inGantry)).map
      Tire.id).Nodup :=
    List.Nodup.sublist (List.Sublist.map Tire.id (List.filter_sublist _)) hInv.ids_nodup
  have hiff : ∀ x, x ∈ s.gantryQueue ↔
      x ∈ (s.activeTires.filter (fun t => t.status == Status.inGantry)).map Tire.id := by
    intro x
    rw [hInv.queue_iff x]
    constructor
    · rintro ⟨t, ht, htx, hts⟩
      exact List.mem_map.2 ⟨t, List.mem_filter.2 ⟨ht, by simp [hts]⟩, htx⟩
    · intro hx
      obtain ⟨t, ht, htx⟩ := List.mem_map.1 hx
      obtain ⟨htA, hts⟩ := List.mem_filter.1 ht
      exact ⟨t, htA, htx, by simpa using hts⟩
  have hperm := (List.perm_ext_iff_of_nodup hInv.queue_nodup hnd2).2 hiff
  rw [hperm.length_eq, List.length_map]

/-- C7: across any event-loop step from a reachable state, every active
unit either keeps its status or advances to the immediately next status in
the order Building, In Gantry, Curing, Finished (so no stage is skipped,
none repeated, and no unit re-enters an earlier stage); a unit disappears
from the active set only out of the Finished stage (the terminal Done);
units that appear are Building; and unit ids stay unique, so no unit is in
two stages at once. -/
theorem c7_stage_progression {bd cd : Nat → Rat} {nc : Nat} {bt ct : Rat}
    {s s1 : SimState} (hr : Reachable bd cd nc bt ct s)
    (hstep : step bd cd s = some s1) :
    (∀ t ∈ s.activeTires,
        (∃ u ∈ s1.activeTires, u.id = t.id ∧
          (u.status = t.status ∨ u.status.rank = t.status.rank + 1)) ∨
        (t.status = .finished ∧ ∀ u ∈ s1.activeTires, u.id ≠ t.id)) ∧
    (∀ u ∈ s1.activeTires, (∀ t ∈ s.activeTires, t.id ≠ u.id) → u.status = .building) ∧
    (s1.activeTires.map Tire.id).Nodup := by
  obtain ⟨ha, hb, _, _⟩ := step_effects (reachable_inv hr) hstep
  refine ⟨?_, hb, (reachable_inv (hr.next hstep)).ids_nodup⟩
  intro t ht
  rcases ha t ht with h | ⟨h1, h2, _, _⟩
  · exact Or.inl h
  · exact Or.inr ⟨h1, h2⟩

/-- C8: in every reachable state the completion counter equals the number
of units that have passed through all four transitions (spawned units minus
still-active units); across any step it is monotone and increases by
exactly 1 exactly when a Finished unit is removed from the active set
(simultaneously releasing its slot), and is unchanged otherwise, with no
unit removed. -/
theorem c8_completion_counter {bd cd : Nat → Rat} {nc : Nat} {bt ct : Rat} {s : SimState}
    (hr : Reachable bd cd nc bt ct s) :
    s.totalFinished + s.activeTires.length + 1 = s.tireCount ∧
    ∀ s1, step bd cd s = some s1 →
      s.totalFinished ≤ s1.totalFinished ∧
      ((s1.totalFinished = s.totalFinished ∧
          ∀ t ∈ s.activeTires, ∃ u ∈ s1.activeTires, u.id = t.id) ∨
        (s1.totalFinished = s.totalFinished + 1 ∧
          ∃ t ∈ s.activeTires, t.status = .finished ∧
            (∀ u ∈ s1.activeTires, u.id ≠ t.id) ∧ t.id ∉ s1.holders)) := by
  have hInv := reachable_inv hr
  refine ⟨by have := hInv.count_eq; omega, ?_⟩
  intro s1 hstep
  obtain ⟨_, _, hc, _⟩ := step_effects hInv hstep
  rcases hc with ⟨he, hk⟩ | ⟨he, hx⟩
  · exact ⟨by rw [he], Or.inl ⟨he, hk⟩⟩
  · exact ⟨by rw [he]; exact Nat.le_succ _, Or.inr ⟨he, hx⟩⟩

/-- C5: pool acquisition is strictly FIFO.  Across any step from a
reachable state, if unit `a` is ahead of unit `b` in the wait queue then
afterwards either both still wait in the same relative order, or `a` has
been granted a slot while `b` still waits; moreover the wait queue is only
left unchanged, appended to at its tail (a new requester), or popped at its
head with the popped waiter becoming a slot holder — the freed slot goes to
the head of the wait list, never to a later waiter. -/
theorem c5_fifo_order {bd cd : Nat → Rat} {nc : Nat} {bt ct : Rat} {s s1 : SimState}
    {a b : Nat} (hr : Reachable bd cd nc bt ct s) (hstep : step bd cd s = some s1)
    (hab : [a, b].Sublist s.waitList) :
    ([a, b].Sublist s1.waitList ∨ (a ∈ s1.holders ∧ b ∈ s1.waitList)) ∧
    (s1.waitList = s.waitList ∨ (∃ x, s1.waitList = s.waitList ++ [x]) ∨
      (∃ w, s.waitList = w :: s1.waitList ∧ w ∈ s1.holders)) := by
  obtain ⟨_, _, _, hd⟩ := step_effects (reachable_inv hr) hstep
  refine ⟨?_, hd⟩
  rcases hd with he | ⟨x, he⟩ | ⟨w, he, hw⟩
  · rw [he]; exact Or.inl hab
  · rw [he]; exact Or.inl (hab.trans (List.sublist_append_left _ _))
  · rw [he] at hab
    rcases sublist_cons_cases hab with h2 | ⟨ys, hys, h2⟩
    · exact Or.inl h2
    · simp only [List.cons.injEq] at hys
      obtain ⟨ha, hys2⟩ := hys
      rw [← hys2] at h2
      refine Or.inr ⟨ha ▸ hw, h2.subset (by simp)⟩

/-- C1 (amended): a unit in the Finishing stage still occupies its pool
slot — the `with` block of the source releases the cavity only when it
exits, i.e. at the Finishing → Done transition.  In every reachable state
every Finished unit is among the holders, and across any step it either
stays Finished and keeps the slot or is retired (Done) with the slot
released in the same step. -/
theorem c1_finishing_keeps_slot {bd cd : Nat → Rat} {nc : Nat} {bt ct : Rat}
    {s : SimState} (hr : Reachable bd cd nc bt ct s) {tid : Nat}
    (hfin : hasTire s tid .finished) :
    tid ∈ s.holders ∧
      ∀ s1, step bd cd s = some s1 →
        (hasTire s1 tid .finished ∧ tid ∈ s1.holders) ∨
        ((∀ u ∈ s1.activeTires, u.id ≠ tid) ∧ tid ∉ s1.holders) := by
  have hInv := reachable_inv hr
  obtain ⟨t0, ht0, hid0, hst0⟩ := hfin
  refine ⟨hid0 ▸ hInv.finished_holder t0 ht0 hst0, ?_⟩
  intro s1 hstep
  obtain ⟨ha, _, _, _⟩ := step_effects hInv hstep
  rcases ha t0 ht0 with ⟨u, hu, huid, hust⟩ | ⟨_, h2, h3, _⟩
  · left
    have hufin : u.status = .finished := by
      rcases hust with h | h
      · rw [h, hst0]
      · rw [hst0] at h
        cases hs : u.status <;> rw [hs] at h <;> simp [Status.rank] at h
    refine ⟨⟨u, hu, huid.trans hid0, hufin⟩, ?_⟩
    have hInv1 := reachable_inv (hr.next hstep)
    exact (huid.trans hid0) ▸ hInv1.finished_holder u hu hufin
  · right
    refine ⟨fun u hu => ?_, hid0 ▸ h3⟩
    rw [← hid0]
    exact h2 u hu

/-- C10: whenever a unit transitions from the gantry to Curing, the
unused-slot lookup of line 66 picks a cavity coordinate different from
every other Curing unit's coordinate — in every reachable state Curing
units have pairwise distinct positions — and, as long as the configured
capacity does not exceed the number of cavity coordinates (the program
runs with capacity 24 and 24 coordinates), the lookup always succeeds: the
event loop can always execute its next pending event. -/
theorem c10_cavity_selection {bd cd : Nat → Rat} {nc : Nat} {bt ct : Rat} {s : SimState}
    (hr : Reachable bd cd nc bt ct s)
    (hcap : s.numCavities ≤ CAVITY_POSITIONS.length) :
    (∀ t ∈ s.activeTires, ∀ u ∈ s.activeTires, t.id ≠ u.id → t.status = .curing →
        u.status = .curing → t.pos ≠ u.pos) ∧
    (∀ e r, popMin s.events = some (e, r) → ∃ s1, step bd cd s = some s1) := by
  have hInv := reachable_inv hr
  refine ⟨?_, ?_⟩
  · intro t ht u hu hne hts hus hpos
    exact hne (hInv.curing_pos_inj t ht u hu hts hus hpos)
  · intro e r hp
    have hevE : EvOk s e.cont :=
      hInv.ev_ok e ((popMin_perm hp).symm.subset (List.mem_cons_self e r))
    unfold step
    rw [hp]
    obtain ⟨tm, pr, sq, c⟩ := e
    cases c with
    | startProduction => exact ⟨_, rfl⟩
    | spawn => exact ⟨_, rfl⟩
    | startLife tid =>
      simp only [stepCont]
      split <;> exact ⟨_, rfl⟩
    | grantCure tid =>
      simp only [stepCont]
      have hsome := find_cavity_isSome hInv hevE hcap
      obtain ⟨p2, hp2⟩ := Option.isSome_iff_exists.1 hsome
      rw [hp2]
      exact ⟨_, rfl⟩
    | cureDone tid => exact ⟨_, rfl⟩
    | finishDone tid =>
      simp only [stepCont]
      split <;> exact ⟨_, rfl⟩

end SimulationV1
namespace SimulationV1

/-- C4 (amended): every uniform draw the engine consumes lies in a window
whose half-width is a fixed constant of the source — `[mean - 3, mean + 3]`
for build intervals (line 45) and `[mean - 60, mean + 60]` for curing
durations (line 72); only the means are configuration inputs.  Across any
step, every newly scheduled spawn timeout fires within the build window
after the current time and every newly scheduled curing completion within
the cure window. -/
theorem c4_draw_windows {bd cd : Nat → Rat} {bt ct : Rat} (hv : ValidDraws bd cd bt ct)
    {s s1 : SimState} (hstep : step bd cd s = some s1) :
    (∀ e ∈ s1.events, e ∉ s.events → e.cont = .spawn →
      s1.now + (buildWindow bt).1 ≤ e.time ∧ e.time ≤ s1.now + (buildWindow bt).2) ∧
    (∀ e ∈ s1.events, e ∉ s.events → (∃ tid, e.cont = .cureDone tid) →
      s1.now + (cureWindow ct).1 ≤ e.time ∧ e.time ≤ s1.now + (cureWindow ct).2) := by
  unfold step at hstep
  cases hp : popMin s.events with
  | none => rw [hp] at hstep; exact absurd hstep (by simp)
  | some p =>
    obtain ⟨e0, rest⟩ := p
    rw [hp] at hstep
    have hperm : s.events.Perm (e0 :: rest) := popMin_perm hp
    have hrest : ∀ x ∈ rest, x ∈ s.events :=
      fun x hx => hperm.symm.subset (List.mem_cons_of_mem e0 hx)
    obtain ⟨tm, pr, sq, c⟩ := e0
    cases c with
    | startProduction =>
      simp only [stepCont, sched, Option.some.injEq] at hstep
      subst hstep
      constructor
      · intro e he hnot _
        rcases List.mem_append.1 he with he | he
        · exact absurd (hrest e he) hnot
        · rw [List.mem_singleton.1 he]
          exact ⟨add_le_add_left (hv s.buildIdx).1.1 tm,
            add_le_add_left (hv s.buildIdx).1.2 tm⟩
      · intro e he hnot hcont
        rcases List.mem_append.1 he with he | he
        · exact absurd (hrest e he) hnot
        · obtain ⟨tid, hc⟩ := hcont
          rw [List.mem_singleton.1 he] at hc
          exact absurd hc (by simp)
    | spawn =>
      simp only [stepCont, sched, Option.some.injEq] at hstep
      subst hstep
      constructor
      · intro e he hnot hcont
        rcases List.mem_append.1 he with he | he
        · rcases List.mem_append.1 he with he | he
          · exact absurd (hrest e he) hnot
          · rw [List.mem_singleton.1 he] at hcont
            exact absurd hcont (by simp)
        · rw [List.mem_singleton.1 he]
          exact ⟨add_le_add_left (hv s.buildIdx).1.1 tm,
            add_le_add_left (hv s.buildIdx).1.2 tm⟩
      · intro e he hnot hcont
        obtain ⟨tid, hc⟩ := hcont
        rcases List.mem_append.1 he with he | he
        · rcases List.mem_append.1 he with he | he
          · exact absurd (hrest e he) hnot
          · rw [List.mem_singleton.1 he] at hc
            exact absurd hc (by simp)
        · rw [List.mem_singleton.1 he] at hc
          exact absurd hc (by simp)
    | startLife tid =>
      simp only [stepCont, sched] at hstep
      split at hstep <;> simp only [Option.some.injEq] at hstep <;> subst hstep
      · constructor
        · intro e he hnot hcont
          rcases List.mem_append.1 he with he | he
          · exact absurd (hrest e he) hnot
          · rw [List.mem_singleton.1 he] at hcont
            exact absurd hcont (by simp)
        · intro e he hnot hcont
          obtain ⟨tid2, hc⟩ := hcont
          rcases List.mem_append.1 he with he | he
          · exact absurd (hrest e he) hnot
          · rw [List.mem_singleton.1 he] at hc
            exact absurd hc (by simp)
      · exact ⟨fun e he hnot _ => absurd (hrest e he) hnot,
          fun e he hnot _ => absurd (hrest e he) hnot⟩
    | grantCure tid =>
      simp only [stepCont, sched] at hstep
      split at hstep
      · exact absurd hstep (by simp)
      case h_2 cavp hfind =>
        simp only [Option.some.injEq] at hstep
        subst hstep
        constructor
        · intro e he hnot hcont
          rcases List.mem_append.1 he with he | he
          · exact absurd (hrest e he) hnot
          · rw [List.mem_singleton.1 he] at hcont
            exact absurd hcont (by simp)
        · intro e he hnot hcont
          rcases List.mem_append.1 he with he | he
          · exact absurd (hrest e he) hnot
          · rw [List.mem_singleton.1 he]
            exact ⟨add_le_add_left (hv s.cureIdx).2.1 tm,
              add_le_add_left (hv s.cureIdx).2.2 tm⟩
    | cureDone tid =>
      simp only [stepCont, sched, Option.some.injEq] at hstep
      subst hstep
      constructor
      · intro e he hnot hcont
        rcases List.mem_append.1 he with he | he
        · exact absurd (hrest e he) hnot
        · rw [List.mem_singleton.1 he] at hcont
          exact absurd hcont (by simp)
      · intro e he hnot hcont
        obtain ⟨tid2, hc⟩ := hcont
        rcases List.mem_append.1 he with he | he
        · exact absurd (hrest e he) hnot
        · rw [List.mem_singleton.1 he] at hc
          exact absurd hc (by simp)
    | finishDone tid =>
      simp only [stepCont, sched] at hstep
      split at hstep <;> simp only [Option.some.injEq] at hstep <;> subst hstep
      · exact ⟨fun e he hnot _ => absurd (hrest e he) hnot,
          fun e he hnot _ => absurd (hrest e he) hnot⟩
      · constructor
        · intro e he hnot hcont
          rcases List.mem_append.1 he with he | he
          · exact absurd (hrest e he) hnot
          · rw [List.mem_singleton.1 he] at hcont
            exact absurd hcont (by simp)
        · intro e he hnot hcont
          obtain ⟨tid2, hc⟩ := hcont
          rcases List.mem_append.1 he with he | he
          · exact absurd (hrest e he) hnot
          · rw [List.mem_singleton.1 he] at hc
            exact absurd hc (by simp)

section

attribute [local semireducible] Rat.add Rat.mul Rat.inv Rat.sub

/-- The constant mean-valued draw streams satisfy the source's draw
windows for build time 10 and cure time 100. -/
theorem mean_draws_valid : ValidDraws meanBuild meanCure 10 100 := by
  intro n
  refine ⟨⟨?_, ?_⟩, ?_, ?_⟩
  · show (buildWindow 10).1 ≤ (10 : Rat); decide
  · show (10 : Rat) ≤ (buildWindow 10).2; decide
  · show (cureWindow 100).1 ≤ (100 : Rat); decide
  · show (100 : Rat) ≤ (cureWindow 100).2; decide

/-- C1 (counterexample): in the deterministic scenario, at time 115 unit 1
is in the Finishing stage and still occupies the single pool slot
(`holders = [1]`), contradicting the claim that a unit in Finishing no
longer occupies a slot. -/
theorem c1_counterexample :
    (scenarioAt 115).map (fun s => (statusOf s 1, s.holders)) =
      some (some Status.finished, [1]) := by decide

/-- C2 (counterexample): the claimed trace is false on the code.  At time
5 no unit exists at all (the claim says one unit is Queued), and at time
115 unit 2 is still Queued in the gantry (the claim says it is Processing
from t=110). -/
theorem c2_counterexample :
    (scenarioAt 5).map (fun s => s.activeTires.length) = some 0 ∧
    ¬ (scenarioAt 5).map (fun s => s.activeTires.length) = some 1 ∧
    (scenarioAt 115).bind (fun s => statusOf s 2) = some Status.inGantry ∧
    ¬ (scenarioAt 115).bind (fun s => statusOf s 2) = some Status.curing := by
  refine ⟨?_, ?_, ?_, ?_⟩ <;> decide

/-- C2 (amended): the deterministic trace of the scenario capacity=1,
build mean 10, cure mean 100, every draw at its mean.  No unit exists at
time 5.  Unit 1 spawns at t=10 and acquires the pool immediately
(Processing at the t=10 snapshot), cures until t=110, is Finishing from
t=110 through t=129 while still holding the slot, and is retired at t=130
when the counter becomes 1 and the slot passes to unit 2.  Unit 2 spawns
at t=20 and stays Queued until t=130 (not t=110), then is Processing until
t=230.  Snapshots are taken after `run(until=T)`. -/
theorem c2_deterministic_trace :
    (scenarioAt 5).map (fun s => (s.activeTires.length, s.totalFinished)) = some (0, 0) ∧
    (scenarioAt 10).map (fun s => (statusOf s 1, s.holders)) =
      some (some Status.curing, [1]) ∧
    (scenarioAt 20).bind (fun s => statusOf s 2) = some Status.inGantry ∧
    (scenarioAt 109).bind (fun s => statusOf s 1) = some Status.curing ∧
    (scenarioAt 110).map (fun s => (statusOf s 1, statusOf s 2, s.holders)) =
      some (some Status.finished, some Status.inGantry, [1]) ∧
    (scenarioAt 129).map (fun s => (statusOf s 1, statusOf s 2, s.holders)) =
      some (some Status.finished, some Status.inGantry, [1]) ∧
    (scenarioAt 130).map
        (fun s => (statusOf s 1, statusOf s 2, s.holders, s.totalFinished)) =
      some (none, some Status.curing, [2], 1) ∧
    (scenarioAt 229).bind (fun s => statusOf s 2) = some Status.curing ∧
    (scenarioAt 230).map (fun s => (statusOf s 2, s.totalFinished)) =
      some (some Status.finished, 1) := by
  refine ⟨?_, ?_, ?_, ?_, ?_, ?_, ?_, ?_, ?_⟩ <;> decide

/-- C3 (counterexample): constructing the factory with a negative build
time succeeds — no `InvalidConfigurationError` (or any validation) exists
on the construction path, contradicting the claim that configuration fails
whenever any value is negative. -/
theorem c3_counterexample : configure 1 (-5) 100 = .ok (initState 1 (-5) 100) := rfl

/-- C3 (amended): the construction path performs no validation at all: for
every parameter assignment — negative or not — it succeeds and simply
stores the parameters (spread is not even a parameter, so the spread ≤ mean
condition is not expressible, and no exception type exists). -/
theorem c3_no_validation : ∀ (nc : Nat) (bt ct : Rat),
    configure nc bt ct = .ok (initState nc bt ct) := fun _ _ _ => rfl

/-- C4 (counterexample): with the spec scenario's claimed configuration
buildSpread = 0 and cureSpread = 0, the windows the code actually draws
from are `[mean - 3, mean + 3]` and `[mean - 60, mean + 60]` — not the
degenerate `[mean, mean]` a caller-supplied zero spread would give — so the
spreads are fixed constants of the source, not configuration inputs. -/
theorem c4_counterexample :
    buildWindow 10 = (7, 13) ∧ ¬ buildWindow 10 = (10 - 0, 10 + 0) ∧
    cureWindow 100 = (40, 160) ∧ ¬ cureWindow 100 = (100 - 0, 100 + 0) := by
  refine ⟨?_, ?_, ?_, ?_⟩ <;> decide

/-- The scenario state after 23 steps is reachable. -/
theorem wstate23_reachable : Reachable meanBuild meanCure 1 10 100 (wstate 23) :=
  stepN_reachable Reachable.init
    (rfl : stepN meanBuild meanCure 23 scenario = some (wstate 23))

/-- Witness for C4: the very first spawn timeout of the scenario is
scheduled at time 10, inside the build window `[0 + 7, 0 + 13]`. -/
theorem c4_draw_windows_witness :
    (wstate 1).now + (buildWindow 10).1 ≤ (10 : Rat) ∧
      (10 : Rat) ≤ (wstate 1).now + (buildWindow 10).2 :=
  (c4_draw_windows mean_draws_valid
      (rfl : step meanBuild meanCure scenario = some (wstate 1))).1
    ⟨10, 1, 1, Cont.spawn⟩ (by decide) (by decide) rfl

/-- Witness for C1 (amended): after 23 scenario steps unit 1 is Finished
and indeed still holds the pool slot. -/
theorem c1_finishing_keeps_slot_witness : 1 ∈ (wstate 23).holders :=
  (c1_finishing_keeps_slot wstate23_reachable
    ⟨⟨1, (15, 5), "black", Status.finished⟩, by decide, rfl, rfl⟩).1

/-- Witness for C5: at step 23 of the scenario units 2 and 3 wait in this
order; after one more step they still do, or 2 has been granted the slot
while 3 still waits. -/
theorem c5_fifo_order_witness :
    ([2, 3] : List Nat).Sublist (wstate 24).waitList ∨
      (2 ∈ (wstate 24).holders ∧ 3 ∈ (wstate 24).waitList) :=
  (c5_fifo_order wstate23_reachable
    (rfl : step meanBuild meanCure (wstate 23) = some (wstate 24))
    (List.Sublist.cons₂ 2 (List.Sublist.cons₂ 3 (List.nil_sublist _)))).1

/-- Witness for C6: after 23 scenario steps the single slot is occupied at
most once and the capacity is still the constructed one. -/
theorem c6_occupancy_bounded_witness :
    (wstate 23).holders.length ≤ 1 ∧ (wstate 23).numCavities = 1 :=
  c6_occupancy_bounded wstate23_reachable

/-- Witness for C7: applying the stage-progression theorem across scenario
step 23 → 24; in particular the ids after the step are still unique. -/
theorem c7_stage_progression_witness :
    ((wstate 24).activeTires.map Tire.id).Nodup :=
  (c7_stage_progression wstate23_reachable
    (rfl : step meanBuild meanCure (wstate 23) = some (wstate 24))).2.2

/-- Witness for C8: after 23 scenario steps the counter plus the active
count plus one equals the next unit number. -/
theorem c8_completion_counter_witness :
    (wstate 23).totalFinished + (wstate 23).activeTires.length + 1 =
      (wstate 23).tireCount :=
  (c8_completion_counter wstate23_reachable).1

/-- Witness for C9: after 23 scenario steps the stored queue depth equals
the recomputed count of Queued units. -/
theorem c9_queue_projection_witness :
    (wstate 23).gantryQueue.length =
      ((wstate 23).activeTires.filter (fun t => t.status == Status.inGantry)).length :=
  (c9_queue_projection wstate23_reachable).2

/-- Witness for C10: from the state after 23 scenario steps the event loop
can execute its next pending event (the cavity lookup cannot fail). -/
theorem c10_cavity_selection_witness :
    (step meanBuild meanCure (wstate 23)).isSome = true := by
  have h := (c10_cavity_selection wstate23_reachable (by decide)).2
  cases hp : popMin (wstate 23).events with
  | none => exact absurd hp (by decide)
  | some p =>
    obtain ⟨s1, hs1⟩ := h p.1 p.2 (by rw [hp])
    rw [hs1]
    rfl

end

end SimulationV1
